import Mathlib

/-!
Verification development for the quantum-circuit compilation toolkit.

The development shallowly embeds the parts of the code base that the claims
touch:

* the gate catalog (`OpType`),
* the circuit intermediate representation as a list of commands over named
  wires, together with the canonical (slice-wise) topological linearization
  and the `to_str` serialization,
* the decomposition transforms (`Transform.decomp_CCX`,
  `Transform.decomp_controlled_Rys`, `Transform.incrementer_borrow_n_qubits`,
  `Transform.incrementer_borrow_1_qubit`),
* the Clifford tableau engine (`SymplecticTableau`, `UnitaryTableau`) with
  Pauli-tensor row arithmetic over the Gaussian integers.

Definitions that embed functions whose C++ source is present under the
repository sources follow that source directly; components whose
implementation files are absent (only their tests or callers are present)
are modelled from the specification and are marked `Modelled from the spec:`
in their doc comments.
-/

namespace Tket

/-- The gate catalog, following the fixed name set of the specification
(section 6) and the `OpType` enumeration used throughout the sources. -/
inductive OpType where
  | X | Y | Z | H | S | Sdg | T | Tdg | V | Vdg | SX | SXdg
  | Rx | Ry | Rz | U1 | U2 | U3 | tk1 | PhasedX
  | CX | CY | CZ | CH | CV | CVdg | CSX | CSXdg
  | CRz | CRx | CRy | CU1 | CU3
  | SWAP | CSWAP | BRIDGE | ECR | ISWAP | XXPhase | YYPhase | ZZPhase | ZZMax
  | XXPhase3 | CnRy | CnX | CCX | ESWAP | FSim | Sycamore | ISWAPMax
  | PhasedISWAP | PhaseGadget | Measure | Collapse | noop | Barrier
  deriving DecidableEq

/-- Modelled from the spec: the gate-flag table (`OpTypeInfo`) marking which
catalog entries are Clifford gates is not among the provided sources; the
flag assignment below follows the specification: a Clifford gate is any gate
in the group generated by H, S and CX (spec glossary), so the fixed
(parameter-free) gates whose unitaries lie in the Clifford group are flagged
true and every parameterised rotation, multi-controlled gate and meta
operation is flagged false. -/
def OpType.is_clifford_type : OpType → Bool
  | .X | .Y | .Z | .H | .S | .Sdg | .V | .Vdg | .SX | .SXdg => true
  | .CX | .CY | .CZ | .SWAP | .BRIDGE | .noop => true
  | .ECR | .ZZMax | .ISWAPMax => true
  | _ => false

/-- Printable catalog name of a gate, as used by `to_str`
(spec section 6; the names are the enumeration constants). -/
def OpType.catalogName : OpType → String
  | .X => "X" | .Y => "Y" | .Z => "Z" | .H => "H" | .S => "S" | .Sdg => "Sdg"
  | .T => "T" | .Tdg => "Tdg" | .V => "V" | .Vdg => "Vdg" | .SX => "SX"
  | .SXdg => "SXdg" | .Rx => "Rx" | .Ry => "Ry" | .Rz => "Rz" | .U1 => "U1"
  | .U2 => "U2" | .U3 => "U3" | .tk1 => "tk1" | .PhasedX => "PhasedX"
  | .CX => "CX" | .CY => "CY" | .CZ => "CZ" | .CH => "CH" | .CV => "CV"
  | .CVdg => "CVdg" | .CSX => "CSX" | .CSXdg => "CSXdg" | .CRz => "CRz"
  | .CRx => "CRx" | .CRy => "CRy" | .CU1 => "CU1" | .CU3 => "CU3"
  | .SWAP => "SWAP" | .CSWAP => "CSWAP" | .BRIDGE => "BRIDGE" | .ECR => "ECR"
  | .ISWAP => "ISWAP" | .XXPhase => "XXPhase" | .YYPhase => "YYPhase"
  | .ZZPhase => "ZZPhase" | .ZZMax => "ZZMax" | .XXPhase3 => "XXPhase3"
  | .CnRy => "CnRy" | .CnX => "CnX" | .CCX => "CCX" | .ESWAP => "ESWAP"
  | .FSim => "FSim" | .Sycamore => "Sycamore" | .ISWAPMax => "ISWAPMax"
  | .PhasedISWAP => "PhasedISWAP" | .PhaseGadget => "PhaseGadget"
  | .Measure => "Measure" | .Collapse => "Collapse" | .noop => "noop"
  | .Barrier => "Barrier"

/-- An operation vertex of the circuit DAG: a gate kind, its angle
parameters (rational coefficients of the base symbolic angle, in
half-turns), and the ordered list of qubit wires it acts on. -/
structure Cmd where
  type : OpType
  params : List ℚ
  args : List ℕ
  deriving DecidableEq

/-- A circuit: the quantum wires `q[0] .. q[n_qubits-1]` together with the
operation vertices in insertion order.  The DAG structure is recovered from
the per-wire subsequences of the insertion order (spec section 3: every
quantum wire crosses its operations in a total order); input and output
ports are implicit, giving `n_vertices = n_gates + 2 * n_qubits`
(spec section 3, there are no classical bits in any circuit the claims
touch). -/
structure Circuit where
  n_qubits : ℕ
  cmds : List Cmd
  deriving DecidableEq

/-- Number of operation vertices. -/
def Circuit.n_gates (c : Circuit) : ℕ := c.cmds.length

/-- Total vertex count: operations plus one input and one output port per
wire (spec section 3 invariant `n_vertices = operations + 2*n_qubits`). -/
def Circuit.n_vertices (c : Circuit) : ℕ := c.cmds.length + 2 * c.n_qubits

/-- Count of operation vertices of a given gate kind. -/
def Circuit.count_gates (c : Circuit) (t : OpType) : ℕ :=
  c.cmds.countP (fun cmd => cmd.type = t)

/-- `add_op`: append an operation at the output end of the named wires.
A `CnRy` requested on a single wire is automatically converted to `Ry`
(repository test: "automatically converted to Ry"). -/
def Circuit.add_op (c : Circuit) (t : OpType) (ps : List ℚ) (args : List ℕ) :
    Circuit :=
  let t2 : OpType := if t = OpType.CnRy ∧ args.length = 1 then OpType.Ry else t
  { c with cmds := c.cmds ++ [⟨t2, ps, args⟩] }

/-- `add_vertex`: insert a bare operation vertex with no incident wires
(used by the tests to build an invalid rewrite target). -/
def Circuit.add_vertex (c : Circuit) (t : OpType) (ps : List ℚ) : Circuit :=
  { c with cmds := c.cmds ++ [⟨t, ps, []⟩] }

/-- `append_qubits`: splice another circuit onto this one, relabelling the
other circuit's wire `i` to wire `map[i]` of this circuit. -/
def Circuit.append_qubits (c other : Circuit) (map : List ℕ) : Circuit :=
  { c with
    cmds := c.cmds ++ other.cmds.map
      (fun cmd => { cmd with args := cmd.args.map (fun a => map.getD a a) }) }

/-- Do two commands touch a common wire? -/
def Cmd.sharesWire (a b : Cmd) : Bool :=
  a.args.any (fun q => b.args.contains q)

/-- The smallest wire index a command touches (its UnitID tie-break key in
the canonical ordering). -/
def Cmd.minWire (a : Cmd) : ℕ :=
  match a.args with
  | [] => 0
  | q :: rest => rest.foldl Nat.min q

/-- One frontier slice: the indexed commands all of whose wire-predecessors
have already been emitted, i.e. those not preceded (in insertion order) by a
remaining command sharing a wire. -/
def readySlice (rem : List (ℕ × Cmd)) : List (ℕ × Cmd) :=
  rem.filter (fun p =>
    !(rem.any (fun q => q.1 < p.1 && q.2.sharesWire p.2)))

/-- Insert into a list sorted by the key, before the first strictly larger
key (so the sort below is stable). -/
def insertByKey (key : ℕ × Cmd → ℕ) (x : ℕ × Cmd) :
    List (ℕ × Cmd) → List (ℕ × Cmd)
  | [] => [x]
  | y :: rest =>
      if key x ≤ key y then x :: y :: rest else y :: insertByKey key x rest

/-- Stable insertion sort by a key. -/
def sortByKey (key : ℕ × Cmd → ℕ) : List (ℕ × Cmd) → List (ℕ × Cmd)
  | [] => []
  | x :: rest => insertByKey key x (sortByKey key rest)

/-- Modelled from the spec: the deterministic canonical topological order of
the circuit's command iterator (spec section 4.D).  The iterator emits the
DAG frontier slice by slice; within a slice (whose members are mutually
independent and touch pairwise disjoint wires) commands are ordered by
smallest incident wire index.  The fuel argument only bounds the recursion;
each round emits a nonempty slice, since the earliest remaining command is
always ready. -/
def sliceOrder : ℕ → List (ℕ × Cmd) → List (ℕ × Cmd)
  | 0, _ => []
  | _ + 1, [] => []
  | fuel + 1, rem =>
      let ready := readySlice rem
      let readySorted := sortByKey (fun p => p.2.minWire) ready
      let rest := rem.filter (fun p => !((ready.map Prod.fst).contains p.1))
      readySorted ++ sliceOrder fuel rest

/-- The circuit's commands in canonical topological order. -/
def Circuit.commands (c : Circuit) : List Cmd :=
  (sliceOrder c.cmds.length c.cmds.enum).map Prod.snd

/-- Render an argument list: `q[0], q[1], q[2]`. -/
def argsString : List ℕ → String
  | [] => ""
  | [a] => "q[" ++ Nat.repr a ++ "]"
  | a :: rest => "q[" ++ Nat.repr a ++ "], " ++ argsString rest

/-- `Command::to_str`: catalog name, space, comma-space separated wire
arguments, trailing semicolon (spec section 6). -/
def Cmd.to_str (cmd : Cmd) : String :=
  cmd.type.catalogName ++ " " ++ argsString cmd.args ++ ";"

/-- Concatenated `to_str` of the commands in canonical topological order:
the canonical linearization used as a byte-exact contract. -/
def Circuit.to_str (c : Circuit) : String :=
  (c.commands.map Cmd.to_str).foldl (fun s t => s ++ t) ""

/-- The error kinds of the specification's error-handling design
(spec section 7; kinds, not C++ exception type names).  `OutOfRange` stands
for the standard-library `std::out_of_range` raised by checked vector
indexing, which is outside the spec's kind table. -/
inductive ErrorKind where
  | NotImplemented
  | NotValid
  | InvalidVertex
  | CircuitInvalidity
  | ArchitectureInvalidity
  | NotCliffordGate
  | NoSuchLines
  | CoefficientNotReal
  | OutOfRange
  deriving DecidableEq

namespace Transform

/-- Modelled from the spec: the fixed 15-gate expansion of CCX over
{H, T, Tdg, CX} (spec section 4.G); the implementation file of
`Transform::decomp_CCX` is not among the provided sources.  The template is
the standard 2-H / 6-CX / 4-T / 3-Tdg Toffoli network on control wires
`a`, `b` and target wire `c`. -/
def CCX_template (a b c : ℕ) : List Cmd :=
  [⟨.H, [], [c]⟩, ⟨.CX, [], [b, c]⟩, ⟨.Tdg, [], [c]⟩, ⟨.CX, [], [a, c]⟩,
   ⟨.T, [], [c]⟩, ⟨.CX, [], [b, c]⟩, ⟨.Tdg, [], [c]⟩, ⟨.CX, [], [a, c]⟩,
   ⟨.T, [], [b]⟩, ⟨.T, [], [c]⟩, ⟨.CX, [], [a, b]⟩, ⟨.H, [], [c]⟩,
   ⟨.T, [], [a]⟩, ⟨.Tdg, [], [b]⟩, ⟨.CX, [], [a, b]⟩]

/-- Replacement of a single command under `decomp_CCX`: a CCX vertex is
rewritten to the 15-gate template on its wires; every other vertex is kept. -/
def decompCCXCmd (cmd : Cmd) : List Cmd :=
  if cmd.type = OpType.CCX then
    match cmd.args with
    | [a, b, c] => CCX_template a b c
    | _ => [cmd]
  else [cmd]

/-- Modelled from the spec: `Transform::decomp_CCX` — rewrite every CCX
vertex using the 15-gate template; return true iff any vertex was rewritten
(spec section 4.H).  The implementation file is not among the provided
sources; the repository test fixes the gate counts of the result. -/
def decomp_CCX (c : Circuit) : Bool × Circuit :=
  (c.cmds.any (fun cmd => cmd.type = OpType.CCX),
   { c with cmds := c.cmds.flatMap decompCCXCmd })

/-- Append raw commands to a circuit (auxiliary editing step). -/
def addCmds (c : Circuit) (l : List Cmd) : Circuit :=
  { c with cmds := c.cmds ++ l }

/-- The two-CX template for a controlled Ry of angle `p` (in half-turns)
on control `c` and target `t`:
`Ry(p/2) t; CX c t; Ry(-p/2) t; CX c t` (spec section 4.G, standard two-CX
template; the repository test requires the two Ry parameters to be `±p/2`). -/
def CRy_template (p : ℚ) (c t : ℕ) : List Cmd :=
  [⟨.Ry, [p / 2], [t]⟩, ⟨.CX, [], [c, t]⟩,
   ⟨.Ry, [-(p / 2)], [t]⟩, ⟨.CX, [], [c, t]⟩]

/-- A multi-controlled X on the given control wires and target wire; a
single control degenerates to a plain CX. -/
def CnX_cmds (ctrls : List ℕ) (tgt : ℕ) : List Cmd :=
  match ctrls with
  | [c] => [⟨.CX, [], [c, tgt]⟩]
  | _ => [⟨.CnX, [], ctrls ++ [tgt]⟩]

/-- Modelled from the spec: the recursive replacement circuit for a
CnRy(p) vertex (`Transform::decomposed_CnRy`); the implementation file is
not among the provided sources.  The recursion follows the standard
no-ancilla controlled-rotation reduction: with controls `c1..ck` (held
reversed) and target `t`,
`C^k Ry(p) = CRy(p/2)(ck,t) ; C^(k-1)X(c1..c(k-1) -> ck) ; CRy(-p/2)(ck,t) ;
C^(k-1)X ; C^(k-1)Ry(p/2)(c1..c(k-1),t)`,
with `C^0 Ry(p) = Ry(p)` and `C^1 Ry` the two-CX template.  For two controls
this yields exactly the 8 CX and 6 Ry gates that the repository test
requires. -/
def CnRyRec (p : ℚ) (revCtrls : List ℕ) (t : ℕ) : List Cmd :=
  match revCtrls with
  | [] => [⟨.Ry, [p], [t]⟩]
  | [c] => CRy_template p c t
  | ck :: rest =>
      CRy_template (p / 2) ck t ++ CnX_cmds rest.reverse ck ++
      CRy_template (-(p / 2)) ck t ++ CnX_cmds rest.reverse ck ++
      CnRyRec (p / 2) rest t

/-- The replacement circuit substituted for a CnRy(p) vertex on the wire
list `args` (controls first, target last). -/
def decomposed_CnRy (p : ℚ) (args : List ℕ) : List Cmd :=
  match args.reverse with
  | [] => []
  | t :: revCtrls => CnRyRec p revCtrls t

/-- Modelled from the spec: the traversal worker of
`Transform::decomp_controlled_Rys` (spec section 4.G): rewrite every CnRy
vertex; fail with `ErrorKind.InvalidVertex` if a target vertex lacks
incident wires; a single-wire CnRy was already auto-converted to Ry at
insertion, so a circuit without CnRy vertices is left unchanged with result
false.  The implementation file is not among the provided sources. -/
def decompRysGo : List Cmd → Except ErrorKind (Bool × List Cmd)
  | [] => .ok (false, [])
  | cmd :: rest =>
      if cmd.type = OpType.CnRy then
        match cmd.args with
        | [] => .error .InvalidVertex
        | args =>
            match decompRysGo rest with
            | .error e => .error e
            | .ok (_, rest2) =>
                .ok (true, decomposed_CnRy (cmd.params.getD 0 1) args ++ rest2)
      else
        match decompRysGo rest with
        | .error e => .error e
        | .ok (b, rest2) => .ok (b, cmd :: rest2)

/-- The transform proper: traverse the DAG in order and substitute every
CnRy vertex (see `decompRysGo`). -/
def decomp_controlled_Rys (c : Circuit) : Except ErrorKind (Bool × Circuit) :=
  match decompRysGo c.cmds with
  | .error e => .error e
  | .ok (b, cmds2) => .ok (b, { c with cmds := cmds2 })

/-- Modelled from the spec: `Transform::incrementer_borrow_n_qubits n`
(spec section 4.G): a circuit on `2n` qubits adding 1 modulo `2^n` to the
register held on the odd wires `q[1], q[3], ..`, using the even wires as
borrowed scratch, restored on exit.  The implementation file is not among
the provided sources; the construction below is the recursive borrowed-bit
ripple (two interleaved borrowed-carry subtract ladders conjugated by
complementations of the borrowed register, with the shared ladder edges
cancelled), whose canonical linearization at `n = 4` reproduces the
byte-exact contract string of the repository test. -/
def incrementer_borrow_n_qubits (n : ℕ) : Circuit :=
  if n = 0 then ⟨0, []⟩
  else if n = 1 then ⟨2, [⟨.X, [], [1]⟩]⟩
  else
    let block1 : List Cmd :=
      ⟨.CX, [], [0, 1]⟩ ::
      ((List.range (n - 1)).map (fun i => (⟨.CX, [], [0, 2 * i + 3]⟩ : Cmd)) ++
       (List.range (n - 1)).map (fun i => (⟨.X, [], [2 * i + 2]⟩ : Cmd)) ++
       [⟨.X, [], [2 * n - 1]⟩, ⟨.CX, [], [0, 1]⟩])
    let block2 : List Cmd :=
      (List.range (n - 1)).flatMap (fun i =>
        [⟨.CX, [], [2 * i + 2, 2 * i]⟩,
         ⟨.CCX, [], [2 * i, 2 * i + 1, 2 * i + 2]⟩,
         ⟨.CX, [], [2 * i + 2, 2 * i + 3]⟩])
    let block3 : List Cmd :=
      ((List.range (n - 1)).reverse.flatMap (fun i =>
        [⟨.CCX, [], [2 * i, 2 * i + 1, 2 * i + 2]⟩,
         ⟨.X, [], [2 * i + 2]⟩])) ++
      [⟨.CX, [], [0, 1]⟩, ⟨.X, [], [0]⟩]
    let block4 : List Cmd :=
      (List.range (n - 1)).flatMap (fun i =>
        [⟨.CCX, [], [2 * i, 2 * i + 1, 2 * i + 2]⟩,
         ⟨.CX, [], [2 * i + 2, 2 * i + 3]⟩] ++
        (if i + 2 < n then [⟨.X, [], [2 * i + 2]⟩] else []))
    let block5 : List Cmd :=
      (List.range (n - 1)).reverse.flatMap (fun i =>
        [⟨.CCX, [], [2 * i, 2 * i + 1, 2 * i + 2]⟩,
         ⟨.CX, [], [2 * i + 2, 2 * i]⟩,
         ⟨.CX, [], [2 * i + 2, 2 * i + 1]⟩])
    let block6 : List Cmd :=
      ⟨.CX, [], [0, 1]⟩ ::
      (List.range (n - 1)).map (fun i => (⟨.CX, [], [0, 2 * i + 3]⟩ : Cmd))
    ⟨2 * n, block1 ++ block2 ++ block3 ++ block4 ++ block5 ++ block6⟩

/-- Modelled from the spec: `Transform::incrementer_borrow_1_qubit n`
(spec section 4.G): a circuit on `n + 1` qubits adding 1 modulo `2^n` to the
first `n` wires, restoring the single borrowed wire `q[n]`.  The
implementation file is not among the provided sources; the spec fixes the
wire count (`n + 1` qubits, no classical bits) and the tests fix the
vertex/gate-count invariant.  Small registers use the naive descending
multi-controlled ripple (which never touches the borrowed wire); larger
registers bootstrap through the borrowed-qubit incrementer on each half,
following the wire mappings that the repository tests replay. -/
def incrementer_borrow_1_qubit (n : ℕ) : Circuit :=
  if n = 0 then ⟨1, []⟩
  else if n < 6 then
    ⟨n + 1,
     ((List.range (n - 1)).reverse.map (fun i =>
        if i + 1 = 1 then (⟨.CX, [], [0, 1]⟩ : Cmd)
        else if i + 1 = 2 then ⟨.CCX, [], [0, 1, 2]⟩
        else ⟨.CnX, [], List.range (i + 2)⟩)) ++
     [⟨.X, [], [0]⟩]⟩
  else
    let k := (n + 1) / 2
    let top := incrementer_borrow_n_qubits k
    let topMap : List ℕ :=
      (List.range (2 * k)).map (fun r => if r % 2 = 0 then r / 2 + k else r / 2)
    let bot := incrementer_borrow_n_qubits (n - k)
    let botMap : List ℕ :=
      (List.range (2 * (n - k))).map (fun r =>
        if r % 2 = 0 then r / 2 else if r = 1 then n else r / 2 + k - 1)
    let base : Circuit := ⟨n + 1, []⟩
    let carry : List Cmd := [⟨.CnX, [], (List.range k).map (fun i => i + k) ++ [n]⟩]
    let xs : List Cmd := (List.range (n - k)).map
      (fun i => (⟨.X, [], [i + k]⟩ : Cmd))
    addCmds
      (Circuit.append_qubits (addCmds (base.append_qubits top topMap) carry)
        bot botMap)
      (carry ++ xs ++ xs)

end Transform

/-- Modelled from the spec: bit of qubit `t` in big-endian basis index `i`
of a three-qubit state (`tket_sim::get_unitary` orders qubit 0 as the most
significant bit; the simulator is not among the provided sources). -/
def bitOf3 (t : ℕ) (i : Fin 8) : Bool :=
  decide ((i.val / 2 ^ (2 - t)) % 2 = 1)

/-- Modelled from the spec: flip the bit of qubit `t` in a three-qubit
basis index. -/
def flipBit3 (t : ℕ) (i : Fin 8) : Fin 8 :=
  ⟨(if (i.val / 2 ^ (2 - t)) % 2 = 1 then i.val - 2 ^ (2 - t)
    else i.val + 2 ^ (2 - t)) % 8,
   Nat.mod_lt _ (by norm_num)⟩

/-- Modelled from the spec: the state-vector action of one command of a
three-qubit circuit over a commutative ring.  A rotation parameter `α`
(half-turns) is valued through cosine and sine assignments
`co si : ℚ → R`, so `Ry(α) = [[co α, -(si α)], [si α, co α]]` acting on
the target qubit; `CX` permutes basis indices.  (Only the Ry and CX cases
are exercised by the CnRy replacement circuit.) -/
def applyCmd3 {R : Type} [CommRing R] (co si : ℚ → R) (cmd : Cmd)
    (v : Fin 8 → R) : Fin 8 → R :=
  match cmd.type, cmd.params, cmd.args with
  | .CX, _, [cq, tq] => fun i =>
      if bitOf3 cq i then v (flipBit3 tq i) else v i
  | .Ry, [α], [tq] => fun i =>
      if bitOf3 tq i then si α * v (flipBit3 tq i) + co α * v i
      else co α * v i - si α * v (flipBit3 tq i)
  | _, _, _ => v

/-- Run a command list on a three-qubit state vector (commands act in
temporal order). -/
def runCmds3 {R : Type} [CommRing R] (co si : ℚ → R) (l : List Cmd)
    (v : Fin 8 → R) : Fin 8 → R :=
  l.foldl (fun w cmd => applyCmd3 co si cmd w) v

/-- Single-qubit Pauli operators. -/
inductive Pauli where
  | I | X | Y | Z
  deriving DecidableEq

/-- The x bit of a Pauli in the tableau's binary-symplectic encoding. -/
def Pauli.xbit : Pauli → Bool
  | .X | .Y => true
  | _ => false

/-- The z bit of a Pauli in the tableau's binary-symplectic encoding. -/
def Pauli.zbit : Pauli → Bool
  | .Z | .Y => true
  | _ => false

/-- Pauli from its (x, z) bit pair. -/
def pauliOfBits : Bool → Bool → Pauli
  | false, false => .I
  | true, false => .X
  | true, true => .Y
  | false, true => .Z

/-- The imaginary unit of the (computable) Gaussian integers, in which all
tableau coefficients live: the coefficients arising in row arithmetic are
exactly the units {1, i, -1, -i}. -/
def iG : GaussianInt := ⟨0, 1⟩

/-- The scalar phase of a product of single-qubit Paulis:
`p * q = phaseMul p q • (the Pauli with the XOR-ed bits)`
(spec section 4.E: the Pauli product rules, as a 4x4 lookup). -/
def phaseMul : Pauli → Pauli → GaussianInt
  | .I, _ => 1
  | _, .I => 1
  | .X, .X => 1
  | .Y, .Y => 1
  | .Z, .Z => 1
  | .X, .Y => iG
  | .Y, .Z => iG
  | .Z, .X => iG
  | .Y, .X => -iG
  | .Z, .Y => -iG
  | .X, .Z => -iG

/-- The unsigned part of a product of single-qubit Paulis. -/
def pauliMul (p q : Pauli) : Pauli :=
  pauliOfBits (xor p.xbit q.xbit) (xor p.zbit q.zbit)

/-- The power of i carried by `phaseMul` (0, 1 or 3 modulo 4). -/
def cellExp : Pauli → Pauli → ZMod 4
  | .X, .Y => 1
  | .Y, .Z => 1
  | .Z, .X => 1
  | .Y, .X => 3
  | .Z, .Y => 3
  | .X, .Z => 3
  | _, _ => 0

/-- Powers of the imaginary unit indexed by `ZMod 4`. -/
def iPow (k : ZMod 4) : GaussianInt := iG ^ k.val

/-- Modelled from the spec: the symplectic tableau over n qubits
(spec section 3.E) — a 2n-by-n x bit matrix, a 2n-by-n z bit matrix and a
length-2n phase vector (bit `true` encodes the sign -1); the first n rows
are the images of `X_i`, the last n rows the images of `Z_i`.  The
`SymplecticTableau` implementation file is not among the provided sources
(only its caller `UnitaryTableau.cpp` is). -/
structure SymplecticTableau (n : ℕ) where
  xmat : Fin (2 * n) → Fin n → Bool
  zmat : Fin (2 * n) → Fin n → Bool
  phase : Fin (2 * n) → Bool

/-- The row index of the X-image row of qubit (row position) `q`. -/
def xIdx {n : ℕ} (q : Fin n) : Fin (2 * n) := ⟨q.val, by omega⟩

/-- The row index of the Z-image row of qubit (row position) `q`. -/
def zIdx {n : ℕ} (q : Fin n) : Fin (2 * n) := ⟨n + q.val, by omega⟩

namespace SymplecticTableau

variable {n : ℕ}

/-- The Pauli stored at row `r`, column `j`. -/
def rowPauli (S : SymplecticTableau n) (r : Fin (2 * n)) (j : Fin n) : Pauli :=
  pauliOfBits (S.xmat r j) (S.zmat r j)

/-- The total scalar produced when multiplying row `a` into row `b` with
coefficient `c`: the coefficient times the cell-wise Pauli product phases
of (row b)·(row a). -/
def rowMultTotal (S : SymplecticTableau n) (a b : Fin (2 * n))
    (c : GaussianInt) : GaussianInt :=
  c * ∏ j : Fin n, phaseMul (S.rowPauli b j) (S.rowPauli a j)

/-- Modelled from the spec: `SymplecticTableau::row_mult(a, b, c)`
(spec section 4.E) — multiply row `a` into row `b` with coefficient
`c ∈ {±1, ±i}`, updating the written row's phase bit by the Pauli product
rules.  The row written is the second argument and the product is taken in
the order (row b)·(row a): this orientation is the one under which the
`UnitaryTableau` front-application relations quoted by the spec
(section 4.F) realize pre-composition, which pins down the convention the
absent implementation file uses. -/
def row_mult (S : SymplecticTableau n) (a b : Fin (2 * n))
    (c : GaussianInt) : SymplecticTableau n :=
  { xmat := fun r j =>
      if r = b then xor (S.xmat b j) (S.xmat a j) else S.xmat r j,
    zmat := fun r j =>
      if r = b then xor (S.zmat b j) (S.zmat a j) else S.zmat r j,
    phase := fun r =>
      if r = b then
        xor (decide (S.rowMultTotal a b c = -1)) (xor (S.phase a) (S.phase b))
      else S.phase r }

/-- Modelled from the spec: `apply_S q` — the Aaronson–Gottesman update
conjugating every row by S on qubit `q` (X ↦ Y, Y ↦ -X, Z ↦ Z):
`phase ^= x&z; z ^= x` at column `q` (spec section 4.E). -/
def apply_S (S : SymplecticTableau n) (q : Fin n) : SymplecticTableau n :=
  { xmat := S.xmat,
    zmat := fun r j =>
      if j = q then xor (S.zmat r j) (S.xmat r j) else S.zmat r j,
    phase := fun r => xor (S.phase r) (S.xmat r q && S.zmat r q) }

/-- Modelled from the spec: `apply_V q` — the update conjugating every row
by V = √X on qubit `q` (X ↦ X, Y ↦ Z, Z ↦ -Y):
`phase ^= z&~x; x ^= z` at column `q` (spec section 4.E). -/
def apply_V (S : SymplecticTableau n) (q : Fin n) : SymplecticTableau n :=
  { xmat := fun r j =>
      if j = q then xor (S.xmat r j) (S.zmat r j) else S.xmat r j,
    zmat := S.zmat,
    phase := fun r => xor (S.phase r) (S.zmat r q && !(S.xmat r q)) }

/-- Modelled from the spec: `apply_CX c t` — the Aaronson–Gottesman CX
update on every row: `phase ^= x_c & z_t & (x_t XNOR z_c); x_t ^= x_c;
z_c ^= z_t` (spec section 4.E). -/
def apply_CX (S : SymplecticTableau n) (c t : Fin n) : SymplecticTableau n :=
  { xmat := fun r j =>
      if j = t then xor (S.xmat r j) (S.xmat r c) else S.xmat r j,
    zmat := fun r j =>
      if j = c then xor (S.zmat r j) (S.zmat r t) else S.zmat r j,
    phase := fun r =>
      xor (S.phase r)
        (S.xmat r c && S.zmat r t && (S.xmat r t == S.zmat r c)) }

/-- The symplectic bilinear form of two rows:
`sum_j x_r(j) z_s(j) + x_s(j) z_r(j)` over GF(2) (spec section 3.E). -/
def sympForm (S : SymplecticTableau n) (r s : Fin (2 * n)) : ZMod 2 :=
  ∑ j : Fin n,
    ((if S.xmat r j then 1 else 0) * (if S.zmat s j then 1 else 0) +
     (if S.xmat s j then 1 else 0) * (if S.zmat r j then (1 : ZMod 2) else 0))

/-- The symplecticity invariant (spec section 3.E): the rows form a
symplectic basis. -/
def isSymplectic (S : SymplecticTableau n) : Prop :=
  ∀ i j : Fin n,
    sympForm S (xIdx i) (zIdx j) = (if i = j then 1 else 0) ∧
    sympForm S (xIdx i) (xIdx j) = 0 ∧
    sympForm S (zIdx i) (zIdx j) = 0

instance (S : SymplecticTableau n) : Decidable (isSymplectic S) := by
  unfold isSymplectic
  infer_instance

end SymplecticTableau

/-- The unitary tableau (spec section 3.F): a symplectic tableau plus a
two-way binding between qubit names and row positions.  The circuits the
claims quantify over name their wires `Qubit(0) .. Qubit(n-1)`, so the
binding is a permutation of `Fin n` (name ↦ row position). -/
structure UnitaryTableau (n : ℕ) where
  tab : SymplecticTableau n
  perm : Equiv.Perm (Fin n)

namespace UnitaryTableau

variable {n : ℕ}

/-- `UnitaryTableau(n)` — the identity tableau: `xmat` is the identity
stacked above zero, `zmat` zero stacked above the identity, phases zero,
and `Qubit(i)` bound to row `i`. -/
def identity (n : ℕ) : UnitaryTableau n :=
  ⟨⟨fun r j => decide (r.val = j.val),
    fun r j => decide (r.val = n + j.val),
    fun _ => false⟩, 1⟩

/-- Stack two n-by-n blocks into the 2n-by-n row space. -/
def stackRows (top bot : Fin n → Fin n → Bool) :
    Fin (2 * n) → Fin n → Bool := fun r j =>
  if h : r.val < n then top ⟨r.val, h⟩ j else bot ⟨r.val - n, by omega⟩ j

/-- Stack two length-n phase blocks. -/
def stackPhase (top bot : Fin n → Bool) : Fin (2 * n) → Bool := fun r =>
  if h : r.val < n then top ⟨r.val, h⟩ else bot ⟨r.val - n, by omega⟩

/-- The six-argument constructor
`UnitaryTableau(xx, xz, xph, zx, zz, zph)` as written in the source:
`xmat` is assembled as `xx` above `zx`, but `zmat` is assembled as
`zx` above `zz` — the source line reads `zmat << zx, zz`, so the `xz`
argument is never used.  (Equally-sized square inputs are enforced by the
index types, mirroring the constructor's size guard.) -/
def ofMatrices (xx xz : Fin n → Fin n → Bool) (xph : Fin n → Bool)
    (zx zz : Fin n → Fin n → Bool) (zph : Fin n → Bool) : UnitaryTableau n :=
  ⟨⟨stackRows xx zx, stackRows zx zz, stackPhase xph zph⟩, 1⟩

/-- `apply_S_at_front q`: `row_mult(q+n, q, i)` on the bound row of `q`. -/
def apply_S_at_front (T : UnitaryTableau n) (qb : Fin n) : UnitaryTableau n :=
  { T with tab := T.tab.row_mult (zIdx (T.perm qb)) (xIdx (T.perm qb)) iG }

/-- `apply_V_at_front q`: `row_mult(q, q+n, i)` on the bound row of `q`. -/
def apply_V_at_front (T : UnitaryTableau n) (qb : Fin n) : UnitaryTableau n :=
  { T with tab := T.tab.row_mult (xIdx (T.perm qb)) (zIdx (T.perm qb)) iG }

/-- `apply_CX_at_front c t`: `row_mult(t, c, 1)` then
`row_mult(c+n, t+n, 1)` on the bound rows. -/
def apply_CX_at_front (T : UnitaryTableau n) (c t : Fin n) :
    UnitaryTableau n :=
  let step1 := T.tab.row_mult (xIdx (T.perm t)) (xIdx (T.perm c)) 1
  let step2 := step1.row_mult (zIdx (T.perm c)) (zIdx (T.perm t)) 1
  { T with tab := step2 }

/-- `apply_S_at_end q`: delegate to the symplectic tableau. -/
def apply_S_at_end (T : UnitaryTableau n) (qb : Fin n) : UnitaryTableau n :=
  { T with tab := T.tab.apply_S (T.perm qb) }

/-- `apply_V_at_end q`: delegate to the symplectic tableau. -/
def apply_V_at_end (T : UnitaryTableau n) (qb : Fin n) : UnitaryTableau n :=
  { T with tab := T.tab.apply_V (T.perm qb) }

/-- `apply_CX_at_end c t`: delegate to the symplectic tableau. -/
def apply_CX_at_end (T : UnitaryTableau n) (c t : Fin n) : UnitaryTableau n :=
  { T with tab := T.tab.apply_CX (T.perm c) (T.perm t) }

/-- `apply_gate_at_front(type, qbs)`: the source's dispatch realizing each
Clifford generator at the front of the circuit by row operations; any gate
kind outside the handled Clifford set fails — the throw site raises the
C++ `NotValid` exception with the message "... cannot be applied to a
UnitaryTableau; it is not a Clifford gate", which the spec's error table
(section 7, kinds not type names) classifies as `NotCliffordGate`.  Checked
vector indexing on too-short wire lists is `OutOfRange`. -/
def apply_gate_at_front (T : UnitaryTableau n) (type : OpType)
    (qbs : List (Fin n)) : Except ErrorKind (UnitaryTableau n) :=
  match type with
  | .Z =>
      match qbs with
      | q :: _ => .ok ((T.apply_S_at_front q).apply_S_at_front q)
      | _ => .error .OutOfRange
  | .X =>
      match qbs with
      | q :: _ => .ok ((T.apply_V_at_front q).apply_V_at_front q)
      | _ => .error .OutOfRange
  | .Y =>
      match qbs with
      | q :: _ =>
          .ok ((((T.apply_S_at_front q).apply_S_at_front q).apply_V_at_front
            q).apply_V_at_front q)
      | _ => .error .OutOfRange
  | .S =>
      match qbs with
      | q :: _ => .ok (T.apply_S_at_front q)
      | _ => .error .OutOfRange
  | .Sdg =>
      match qbs with
      | q :: _ =>
          .ok (((T.apply_S_at_front q).apply_S_at_front q).apply_S_at_front q)
      | _ => .error .OutOfRange
  | .V =>
      match qbs with
      | q :: _ => .ok (T.apply_V_at_front q)
      | _ => .error .OutOfRange
  | .Vdg =>
      match qbs with
      | q :: _ =>
          .ok (((T.apply_V_at_front q).apply_V_at_front q).apply_V_at_front q)
      | _ => .error .OutOfRange
  | .H =>
      match qbs with
      | q :: _ =>
          .ok (((T.apply_S_at_front q).apply_V_at_front q).apply_S_at_front q)
      | _ => .error .OutOfRange
  | .CX =>
      match qbs with
      | c :: t :: _ => .ok (T.apply_CX_at_front c t)
      | _ => .error .OutOfRange
  | .CY =>
      match qbs with
      | c :: t :: _ =>
          .ok (((((T.apply_V_at_front t).apply_V_at_front t).apply_V_at_front
            t).apply_CX_at_front c t).apply_V_at_front t)
      | _ => .error .OutOfRange
  | .CZ =>
      match qbs with
      | c :: t :: _ =>
          .ok (((((((T.apply_S_at_front t).apply_V_at_front
            t).apply_S_at_front t).apply_CX_at_front c t).apply_S_at_front
            t).apply_V_at_front t).apply_S_at_front t)
      | _ => .error .OutOfRange
  | .SWAP =>
      match qbs with
      | a :: b :: _ =>
          .ok (((T.apply_CX_at_front a b).apply_CX_at_front
            b a).apply_CX_at_front a b)
      | _ => .error .OutOfRange
  | .BRIDGE =>
      match qbs with
      | c :: _ :: t :: _ => .ok (T.apply_CX_at_front c t)
      | _ => .error .OutOfRange
  | .noop => .ok T
  | _ => .error .NotCliffordGate

end UnitaryTableau

/-- A Pauli tensor keyed by qubit names, with a Gaussian-integer
coefficient (the coefficients occurring in tableau row products are the
units {1, i, -1, -i}). -/
structure QubitPauliTensor (n : ℕ) where
  coeff : GaussianInt
  string : Fin n → Pauli

namespace QubitPauliTensor

variable {n : ℕ}

/-- Tensor product-wise multiplication: coefficients multiply together with
the per-qubit Pauli product phases. -/
def mul (t1 t2 : QubitPauliTensor n) : QubitPauliTensor n :=
  ⟨t1.coeff * t2.coeff * ∏ j : Fin n, phaseMul (t1.string j) (t2.string j),
   fun j => pauliMul (t1.string j) (t2.string j)⟩

/-- Scale a tensor's coefficient by the imaginary unit. -/
def scaleI (t : QubitPauliTensor n) : QubitPauliTensor n :=
  ⟨iG * t.coeff, t.string⟩

/-- Re-key a tensor along a permutation of the qubit names. -/
def reindex (π : Equiv.Perm (Fin n)) (t : QubitPauliTensor n) :
    QubitPauliTensor n :=
  ⟨t.coeff, fun q => t.string (π q)⟩

end QubitPauliTensor

namespace UnitaryTableau

variable {n : ℕ}

/-- `get_xrow qb`: the Pauli tensor stored in the X-image row bound to
qubit `qb`; the tensor assigns qubit name `q` the Pauli in column
`perm q`. -/
def get_xrow (T : UnitaryTableau n) (qb : Fin n) : QubitPauliTensor n :=
  ⟨if T.tab.phase (xIdx (T.perm qb)) then -1 else 1,
   fun q => T.tab.rowPauli (xIdx (T.perm qb)) (T.perm q)⟩

/-- `get_zrow qb`: the Pauli tensor stored in the Z-image row bound to
qubit `qb`. -/
def get_zrow (T : UnitaryTableau n) (qb : Fin n) : QubitPauliTensor n :=
  ⟨if T.tab.phase (zIdx (T.perm qb)) then -1 else 1,
   fun q => T.tab.rowPauli (zIdx (T.perm qb)) (T.perm q)⟩

/-- `get_row_product(qpt)`: push a Pauli tensor through the tableau,
multiplying for every qubit the appropriate rows (`Y = i·X·Z`). -/
def get_row_product (T : UnitaryTableau n) (qpt : QubitPauliTensor n) :
    QubitPauliTensor n :=
  (List.finRange n).foldl
    (fun acc q =>
      match qpt.string q with
      | .I => acc
      | .X => acc.mul (T.get_xrow q)
      | .Y => ((acc.mul (T.get_xrow q)).mul (T.get_zrow q)).scaleI
      | .Z => acc.mul (T.get_zrow q))
    ⟨qpt.coeff, fun _ => Pauli.I⟩

/-- Is a coefficient one of the real units ±1? -/
def isRealUnit (c : GaussianInt) : Bool := c = 1 || c = -1

/-- The tableau assembled by `compose` from the pushed X and Z row
tensors. -/
def composeTab (xr zr : Fin n → QubitPauliTensor n) : SymplecticTableau n :=
  ⟨fun r j =>
      if h : r.val < n then ((xr ⟨r.val, h⟩).string j).xbit
      else ((zr ⟨r.val - n, by omega⟩).string j).xbit,
    fun r j =>
      if h : r.val < n then ((xr ⟨r.val, h⟩).string j).zbit
      else ((zr ⟨r.val - n, by omega⟩).string j).zbit,
    fun r =>
      if h : r.val < n then decide ((xr ⟨r.val, h⟩).coeff = -1)
      else decide ((zr ⟨r.val - n, by omega⟩).coeff = -1)⟩

/-- `compose(first, second)`: the tableau of `second ∘ first`.  For every
qubit name the X (resp. Z) row of `first` is pushed through `second` with
`get_row_product`; a non-real coefficient fails with
`ErrorKind.CoefficientNotReal` (the source's `NotValid("Coefficient error
in Tableau composition")` throw site, classified by the spec's kind table);
otherwise the rows are re-assembled into a tableau whose binding lists the
names in ascending order. -/
def compose (first second : UnitaryTableau n) :
    Except ErrorKind (UnitaryTableau n) :=
  let xr : Fin n → QubitPauliTensor n := fun qi =>
    second.get_row_product (first.get_xrow qi)
  let zr : Fin n → QubitPauliTensor n := fun qi =>
    second.get_row_product (first.get_zrow qi)
  if (List.finRange n).all
      (fun qi => isRealUnit (xr qi).coeff && isRealUnit (zr qi).coeff) then
    .ok ⟨composeTab xr zr, 1⟩
  else .error .CoefficientNotReal

/-- `operator==`: equality of tableaux as named objects — entries are
compared per qubit-name pair through each side's own binding. -/
def beqUT (A B : UnitaryTableau n) : Bool :=
  (List.finRange n).all fun qi =>
    ((List.finRange n).all fun qj =>
      (A.tab.xmat (xIdx (A.perm qi)) (A.perm qj)
        == B.tab.xmat (xIdx (B.perm qi)) (B.perm qj)) &&
      (A.tab.zmat (xIdx (A.perm qi)) (A.perm qj)
        == B.tab.zmat (xIdx (B.perm qi)) (B.perm qj)) &&
      (A.tab.xmat (zIdx (A.perm qi)) (A.perm qj)
        == B.tab.xmat (zIdx (B.perm qi)) (B.perm qj)) &&
      (A.tab.zmat (zIdx (A.perm qi)) (A.perm qj)
        == B.tab.zmat (zIdx (B.perm qi)) (B.perm qj))) &&
    (A.tab.phase (xIdx (A.perm qi)) == B.tab.phase (xIdx (B.perm qi))) &&
    (A.tab.phase (zIdx (A.perm qi)) == B.tab.phase (zIdx (B.perm qi)))

/-- Does an exceptional tableau result hold a value equal (as `==`) to the
given tableau? -/
def okBeq (e : Except ErrorKind (UnitaryTableau n)) (t : UnitaryTableau n) :
    Bool :=
  match e with
  | .ok r => beqUT r t
  | .error _ => false

end UnitaryTableau

namespace QubitPauliTensor

variable {n : ℕ}

/-- The identity tensor. -/
def tOne (n : ℕ) : QubitPauliTensor n := ⟨1, fun _ => Pauli.I⟩

/-- The tensor with a single non-identity Pauli `p` at qubit `q`. -/
def singleP (q : Fin n) (p : Pauli) : QubitPauliTensor n :=
  ⟨1, fun j => if j = q then p else Pauli.I⟩

/-- Scale a tensor's coefficient. -/
def qscale (c : GaussianInt) (t : QubitPauliTensor n) : QubitPauliTensor n :=
  ⟨c * t.coeff, t.string⟩

/-- The cell-wise phase product of two Pauli strings. -/
def prodPhase (s1 s2 : Fin n → Pauli) : GaussianInt :=
  ∏ j : Fin n, phaseMul (s1 j) (s2 j)

/-- The anticommutation indicator of two single-qubit Paulis,
as a value in `ZMod 4` for exponent arithmetic. -/
def acInd (p q : Pauli) : ZMod 4 :=
  if xor (p.xbit && q.zbit) (q.xbit && p.zbit) then 1 else 0

/-- The anticommutation count (mod 4) of two Pauli strings. -/
def acSum (s1 s2 : Fin n → Pauli) : ZMod 4 :=
  ∑ j : Fin n, acInd (s1 j) (s2 j)

end QubitPauliTensor

/-- The Pauli tensor stored in a tableau row, in row/column index space
(the name-keyed `get_xrow`/`get_zrow` are this tensor with the qubit
binding applied to the columns). -/
def SymplecticTableau.stRow {n : ℕ} (S : SymplecticTableau n)
    (r : Fin (2 * n)) : QubitPauliTensor n :=
  ⟨if S.phase r then -1 else 1, fun j => S.rowPauli r j⟩

/-- One multiplication step of `get_row_product`, expressed as a right
multiplication by a per-qubit row factor. -/
def UnitaryTableau.rowFactor {n : ℕ} (T : UnitaryTableau n) (p : Pauli)
    (q : Fin n) : QubitPauliTensor n :=
  match p with
  | .I => QubitPauliTensor.tOne n
  | .X => T.get_xrow q
  | .Y => ((T.get_xrow q).mul (T.get_zrow q)).scaleI
  | .Z => T.get_zrow q

/-- The parity of a `ZMod 4` exponent, as a `ZMod 2` value. -/
def z4parity (k : ZMod 4) : ZMod 2 := (k.val : ZMod 2)

section Lemmas

/-- Extensionality for Pauli tensors. -/
theorem qptExt {n : ℕ} {t1 t2 : QubitPauliTensor n}
    (hc : t1.coeff = t2.coeff) (hs : t1.string = t2.string) : t1 = t2 := by
  cases t1; cases t2; simp_all

/-- The x bit of `pauliOfBits` recovers its argument. -/
theorem xbit_pauliOfBits (x z : Bool) : (pauliOfBits x z).xbit = x := by
  cases x <;> cases z <;> rfl

/-- The z bit of `pauliOfBits` recovers its argument. -/
theorem zbit_pauliOfBits (x z : Bool) : (pauliOfBits x z).zbit = z := by
  cases x <;> cases z <;> rfl

/-- Every phase-product cell factor is the stated power of i. -/
theorem phaseMul_eq_iPow (p q : Pauli) : phaseMul p q = iPow (cellExp p q) := by
  cases p <;> cases q <;> decide

/-- Powers of i turn sums of exponents into products. -/
theorem iPow_add (a b : ZMod 4) : iPow (a + b) = iPow a * iPow b := by
  revert a b; decide

/-- `iPow 0 = 1`. -/
theorem iPow_zero : iPow 0 = 1 := by decide

/-- The parity map is additive. -/
theorem z4parity_add (a b : ZMod 4) :
    z4parity (a + b) = z4parity a + z4parity b := by
  revert a b; decide

/-- `z4parity 0 = 0`. -/
theorem z4parity_zero : z4parity 0 = 0 := by decide

/-- Powers of i indexed by sums. -/
theorem iPow_sum {α : Type} (s : Finset α) (f : α → ZMod 4) :
    iPow (∑ a ∈ s, f a) = ∏ a ∈ s, iPow (f a) := by
  classical
  induction s using Finset.cons_induction with
  | empty => simp [iPow_zero]
  | cons a s ha ih => rw [Finset.sum_cons, Finset.prod_cons, iPow_add, ih]

/-- Parity of a sum of exponents. -/
theorem z4parity_sum {α : Type} (s : Finset α) (f : α → ZMod 4) :
    z4parity (∑ a ∈ s, f a) = ∑ a ∈ s, z4parity (f a) := by
  classical
  induction s using Finset.cons_induction with
  | empty => simp [z4parity_zero]
  | cons a s ha ih => rw [Finset.sum_cons, Finset.sum_cons, z4parity_add, ih]

/-- The parity of a cell exponent is the cell's symplectic-form term. -/
theorem z4parity_cellExp (p q : Pauli) :
    z4parity (cellExp p q) =
      (if p.xbit then 1 else 0) * (if q.zbit then 1 else 0) +
        (if q.xbit then 1 else 0) * (if p.zbit then (1 : ZMod 2) else 0) := by
  cases p <;> cases q <;> decide

/-- The parity of a cell's anticommutation indicator is the same
symplectic-form term. -/
theorem z4parity_acInd (p q : Pauli) :
    z4parity (QubitPauliTensor.acInd p q) =
      (if p.xbit then 1 else 0) * (if q.zbit then 1 else 0) +
        (if q.xbit then 1 else 0) * (if p.zbit then (1 : ZMod 2) else 0) := by
  cases p <;> cases q <;> decide

/-- A cell exponent flips orientation up to twice the anticommutation
indicator. -/
theorem cellExp_swap (p q : Pauli) :
    cellExp p q = cellExp q p + 2 * QubitPauliTensor.acInd p q := by
  cases p <;> cases q <;> decide

/-- The unsigned Pauli product is commutative. -/
theorem pauliMul_comm (p q : Pauli) : pauliMul p q = pauliMul q p := by
  cases p <;> cases q <;> decide

/-- The unsigned Pauli product is associative. -/
theorem pauliMul_assoc (p q r : Pauli) :
    pauliMul (pauliMul p q) r = pauliMul p (pauliMul q r) := by
  cases p <;> cases q <;> cases r <;> decide

/-- The phase cocycle identity for triple Pauli products. -/
theorem cellExp_cocycle (p q r : Pauli) :
    cellExp p q + cellExp (pauliMul p q) r =
      cellExp q r + cellExp p (pauliMul q r) := by
  cases p <;> cases q <;> cases r <;> decide

/-- Multiplying by the identity Pauli is trivial on phases (left). -/
theorem phaseMul_I_left (p : Pauli) : phaseMul Pauli.I p = 1 := by
  cases p <;> rfl

/-- Multiplying by the identity Pauli is trivial on phases (right). -/
theorem phaseMul_I_right (p : Pauli) : phaseMul p Pauli.I = 1 := by
  cases p <;> rfl

/-- The identity Pauli is a left unit. -/
theorem pauliMul_I_left (p : Pauli) : pauliMul Pauli.I p = p := by
  cases p <;> rfl

/-- The identity Pauli is a right unit. -/
theorem pauliMul_I_right (p : Pauli) : pauliMul p Pauli.I = p := by
  cases p <;> rfl

namespace QubitPauliTensor

variable {n : ℕ}

/-- The coefficient of a product of tensors. -/
theorem mul_coeff (t1 t2 : QubitPauliTensor n) :
    (t1.mul t2).coeff = t1.coeff * t2.coeff * prodPhase t1.string t2.string :=
  rfl

/-- The string of a product of tensors. -/
theorem mul_string (t1 t2 : QubitPauliTensor n) :
    (t1.mul t2).string = fun j => pauliMul (t1.string j) (t2.string j) := rfl

/-- The phase product against an all-identity string is 1. -/
theorem prodPhase_I_left (s : Fin n → Pauli) :
    prodPhase (fun _ => Pauli.I) s = 1 := by
  unfold prodPhase
  simp [phaseMul_I_left]

/-- The phase product with an all-identity string is 1. -/
theorem prodPhase_I_right (s : Fin n → Pauli) :
    prodPhase s (fun _ => Pauli.I) = 1 := by
  unfold prodPhase
  simp [phaseMul_I_right]

/-- The phase product as a power of i. -/
theorem prodPhase_eq_iPow (s1 s2 : Fin n → Pauli) :
    prodPhase s1 s2 = iPow (∑ j : Fin n, cellExp (s1 j) (s2 j)) := by
  unfold prodPhase
  rw [iPow_sum]
  exact Finset.prod_congr rfl (fun j _ => phaseMul_eq_iPow _ _)

/-- Left unit for tensor multiplication. -/
theorem tOne_mul (t : QubitPauliTensor n) : (tOne n).mul t = t := by
  refine qptExt ?_ ?_
  · rw [mul_coeff]
    show 1 * t.coeff * prodPhase (fun _ => Pauli.I) t.string = t.coeff
    rw [prodPhase_I_left]; ring
  · rw [mul_string]
    funext j
    exact pauliMul_I_left _

/-- Right unit for tensor multiplication. -/
theorem mul_tOne (t : QubitPauliTensor n) : t.mul (tOne n) = t := by
  refine qptExt ?_ ?_
  · rw [mul_coeff]
    show t.coeff * 1 * prodPhase t.string (fun _ => Pauli.I) = t.coeff
    rw [prodPhase_I_right]; ring
  · rw [mul_string]
    funext j
    exact pauliMul_I_right _

/-- A scaled left factor scales the product. -/
theorem qscale_mul (c : GaussianInt) (t1 t2 : QubitPauliTensor n) :
    (qscale c t1).mul t2 = qscale c (t1.mul t2) := by
  refine qptExt ?_ rfl
  rw [mul_coeff]
  show c * t1.coeff * t2.coeff * prodPhase t1.string t2.string = _
  rw [qscale, mul_coeff]
  ring

/-- A scaled right factor scales the product. -/
theorem mul_qscale (c : GaussianInt) (t1 t2 : QubitPauliTensor n) :
    t1.mul (qscale c t2) = qscale c (t1.mul t2) := by
  refine qptExt ?_ rfl
  rw [mul_coeff]
  show t1.coeff * (c * t2.coeff) * prodPhase t1.string t2.string = _
  rw [qscale, mul_coeff]
  ring

/-- `scaleI` is scaling by i. -/
theorem scaleI_eq_qscale (t : QubitPauliTensor n) : t.scaleI = qscale iG t :=
  rfl

/-- Tensor multiplication is associative. -/
theorem mul_assoc (t1 t2 t3 : QubitPauliTensor n) :
    (t1.mul t2).mul t3 = t1.mul (t2.mul t3) := by
  refine qptExt ?_ ?_
  · rw [mul_coeff, mul_coeff, mul_coeff, mul_coeff, mul_string, mul_string,
      prodPhase_eq_iPow, prodPhase_eq_iPow, prodPhase_eq_iPow,
      prodPhase_eq_iPow]
    have hsum :
        (∑ j : Fin n, cellExp (t1.string j) (t2.string j)) +
          (∑ j : Fin n, cellExp (pauliMul (t1.string j) (t2.string j))
            (t3.string j)) =
        (∑ j : Fin n, cellExp (t2.string j) (t3.string j)) +
          (∑ j : Fin n, cellExp (t1.string j)
            (pauliMul (t2.string j) (t3.string j))) := by
      rw [← Finset.sum_add_distrib, ← Finset.sum_add_distrib]
      exact Finset.sum_congr rfl (fun j _ => cellExp_cocycle _ _ _)
    calc t1.coeff * t2.coeff *
          iPow (∑ j : Fin n, cellExp (t1.string j) (t2.string j)) * t3.coeff *
          iPow (∑ j : Fin n,
            cellExp (pauliMul (t1.string j) (t2.string j)) (t3.string j))
        = t1.coeff * t2.coeff * t3.coeff *
          (iPow (∑ j : Fin n, cellExp (t1.string j) (t2.string j)) *
           iPow (∑ j : Fin n,
             cellExp (pauliMul (t1.string j) (t2.string j)) (t3.string j))) := by
          ring
      _ = t1.coeff * t2.coeff * t3.coeff *
          (iPow (∑ j : Fin n, cellExp (t2.string j) (t3.string j)) *
           iPow (∑ j : Fin n, cellExp (t1.string j)
             (pauliMul (t2.string j) (t3.string j)))) := by
          rw [← iPow_add, ← iPow_add, hsum]
      _ = t1.coeff *
          (t2.coeff * t3.coeff *
            iPow (∑ j : Fin n, cellExp (t2.string j) (t3.string j))) *
          iPow (∑ j : Fin n, cellExp (t1.string j)
            (pauliMul (t2.string j) (t3.string j))) := by
          ring
  · rw [mul_string, mul_string, mul_string, mul_string]
    funext j
    exact pauliMul_assoc _ _ _

/-- Tensors commute up to the sign given by their anticommutation count. -/
theorem mul_comm_sign (t1 t2 : QubitPauliTensor n) :
    t1.mul t2 = qscale (iPow (2 * acSum t1.string t2.string)) (t2.mul t1) := by
  refine qptExt ?_ ?_
  · rw [mul_coeff]
    show t1.coeff * t2.coeff * prodPhase t1.string t2.string = _
    rw [qscale, mul_coeff, prodPhase_eq_iPow, prodPhase_eq_iPow]
    have hsum : (∑ j : Fin n, cellExp (t1.string j) (t2.string j)) =
        (∑ j : Fin n, cellExp (t2.string j) (t1.string j)) +
          2 * acSum t1.string t2.string := by
      unfold acSum
      rw [Finset.mul_sum, ← Finset.sum_add_distrib]
      exact Finset.sum_congr rfl (fun j _ => cellExp_swap _ _)
    rw [hsum, iPow_add]
    ring
  · rw [qscale, mul_string, mul_string]
    funext j
    exact pauliMul_comm _ _

/-- Tensors with an even anticommutation count commute. -/
theorem mul_comm_of_even (t1 t2 : QubitPauliTensor n)
    (h : 2 * acSum t1.string t2.string = 0) : t1.mul t2 = t2.mul t1 := by
  rw [mul_comm_sign, h, iPow_zero]
  refine qptExt ?_ rfl
  show 1 * (t2.mul t1).coeff = _
  ring

end QubitPauliTensor

section FoldMachinery

open QubitPauliTensor

variable {n : ℕ}

/-- Folding multiplications over factors that are all the identity tensor
leaves the accumulator unchanged. -/
theorem foldl_mul_skip (f : Fin n → QubitPauliTensor n) (l : List (Fin n))
    (h : ∀ q ∈ l, f q = tOne n) (acc : QubitPauliTensor n) :
    l.foldl (fun a q => a.mul (f q)) acc = acc := by
  induction l generalizing acc with
  | nil => rfl
  | cons a l ih =>
      have ha : f a = tOne n := h a (List.mem_cons_self a l)
      have hl : ∀ q ∈ l, f q = tOne n := fun q hq =>
        h q (List.mem_cons_of_mem a hq)
      simp only [List.foldl_cons, ha, mul_tOne]
      exact ih hl acc

/-- Folding multiplications when exactly one listed factor is non-trivial:
the result is one multiplication. -/
theorem foldl_mul_single (f : Fin n → QubitPauliTensor n) (l : List (Fin n))
    (v : Fin n) (hnd : l.Nodup) (hv : v ∈ l)
    (hoff : ∀ q ∈ l, q ≠ v → f q = tOne n) (acc : QubitPauliTensor n) :
    l.foldl (fun a q => a.mul (f q)) acc = acc.mul (f v) := by
  induction l generalizing acc with
  | nil => cases hv
  | cons a l ih =>
      by_cases hav : a = v
      · subst hav
        have hnotin : a ∉ l := (List.nodup_cons.mp hnd).1
        have hl : ∀ q ∈ l, f q = tOne n := fun q hq =>
          hoff q (List.mem_cons_of_mem a hq)
            (fun hq2 => hnotin (hq2 ▸ hq))
        simp only [List.foldl_cons]
        exact foldl_mul_skip f l hl _
      · have hfa : f a = tOne n :=
          hoff a (List.mem_cons_self a l) hav
        have hvl : v ∈ l := by
          rcases List.mem_cons.mp hv with h | h
          · exact absurd h.symm hav
          · exact h
        simp only [List.foldl_cons, hfa, mul_tOne]
        exact ih (List.nodup_cons.mp hnd).2 hvl
          (fun q hq hq2 => hoff q (List.mem_cons_of_mem a hq) hq2) acc

/-- Folding multiplications when exactly two listed factors are
non-trivial and they commute: the result is two multiplications. -/
theorem foldl_mul_pair (f : Fin n → QubitPauliTensor n) (l : List (Fin n))
    (u v : Fin n) (huv : u ≠ v) (hnd : l.Nodup) (hu : u ∈ l) (hv : v ∈ l)
    (hoff : ∀ q ∈ l, q ≠ u → q ≠ v → f q = tOne n)
    (hcomm : (f u).mul (f v) = (f v).mul (f u)) (acc : QubitPauliTensor n) :
    l.foldl (fun a q => a.mul (f q)) acc = (acc.mul (f u)).mul (f v) := by
  induction l generalizing acc with
  | nil => cases hu
  | cons a l ih =>
      have hndl := (List.nodup_cons.mp hnd).2
      have hanotin : a ∉ l := (List.nodup_cons.mp hnd).1
      by_cases hau : a = u
      · subst hau
        have hvl : v ∈ l := by
          rcases List.mem_cons.mp hv with h | h
          · exact absurd h.symm huv
          · exact h
        simp only [List.foldl_cons]
        exact foldl_mul_single f l v hndl hvl
          (fun q hq hq2 =>
            hoff q (List.mem_cons_of_mem a hq)
              (fun h2 => hanotin (h2 ▸ hq)) hq2) _
      · by_cases hav : a = v
        · subst hav
          have hul : u ∈ l := by
            rcases List.mem_cons.mp hu with h | h
            · exact absurd h.symm hau
            · exact h
          simp only [List.foldl_cons]
          rw [foldl_mul_single f l u hndl hul
            (fun q hq hq2 =>
              hoff q (List.mem_cons_of_mem a hq) hq2
                (fun h2 => hanotin (h2 ▸ hq)))]
          rw [QubitPauliTensor.mul_assoc, ← hcomm, ← QubitPauliTensor.mul_assoc]
        · have hfa : f a = tOne n := hoff a (List.mem_cons_self a l) hau hav
          have hul : u ∈ l := by
            rcases List.mem_cons.mp hu with h | h
            · exact absurd h.symm hau
            · exact h
          have hvl : v ∈ l := by
            rcases List.mem_cons.mp hv with h | h
            · exact absurd h.symm hav
            · exact h
          simp only [List.foldl_cons, hfa, mul_tOne]
          exact ih hndl hul hvl
            (fun q hq => hoff q (List.mem_cons_of_mem a hq)) acc

/-- `get_row_product` is a fold of right multiplications by row factors. -/
theorem get_row_product_eq_fold (T : UnitaryTableau n)
    (t : QubitPauliTensor n) :
    T.get_row_product t =
      (List.finRange n).foldl
        (fun acc q => acc.mul (T.rowFactor (t.string q) q))
        ⟨t.coeff, fun _ => Pauli.I⟩ := by
  unfold UnitaryTableau.get_row_product
  have hstep : ∀ (acc : QubitPauliTensor n) (q : Fin n),
      (match t.string q with
        | Pauli.I => acc
        | Pauli.X => acc.mul (T.get_xrow q)
        | Pauli.Y => ((acc.mul (T.get_xrow q)).mul (T.get_zrow q)).scaleI
        | Pauli.Z => acc.mul (T.get_zrow q)) =
      acc.mul (T.rowFactor (t.string q) q) := by
    intro acc q
    cases h : t.string q with
    | I => rw [UnitaryTableau.rowFactor, mul_tOne]
    | X => rfl
    | Y =>
        show ((acc.mul (T.get_xrow q)).mul (T.get_zrow q)).scaleI =
          acc.mul (((T.get_xrow q).mul (T.get_zrow q)).scaleI)
        rw [scaleI_eq_qscale, scaleI_eq_qscale, mul_qscale,
          QubitPauliTensor.mul_assoc]
    | Z => rfl
  have hfun :
      (fun (acc : QubitPauliTensor n) (q : Fin n) =>
        match t.string q with
        | Pauli.I => acc
        | Pauli.X => acc.mul (T.get_xrow q)
        | Pauli.Y => ((acc.mul (T.get_xrow q)).mul (T.get_zrow q)).scaleI
        | Pauli.Z => acc.mul (T.get_zrow q)) =
      fun (acc : QubitPauliTensor n) (q : Fin n) =>
        acc.mul (T.rowFactor (t.string q) q) := by
    funext acc q
    exact hstep acc q
  rw [hfun]

/-- A row tensor of a row not written by `row_mult` is unchanged. -/
theorem stRow_row_mult_ne (S : SymplecticTableau n) (a b r : Fin (2 * n))
    (c : GaussianInt) (h : r ≠ b) :
    (S.row_mult a b c).stRow r = S.stRow r := by
  unfold SymplecticTableau.stRow SymplecticTableau.row_mult
    SymplecticTableau.rowPauli
  simp [h]

/-- The sign/phase bookkeeping identity behind `row_mult`'s phase bit. -/
theorem sign_phase_eq (pa pb : Bool) (tt : GaussianInt)
    (h : tt = 1 ∨ tt = -1) :
    (if xor (decide (tt = -1)) (xor pa pb) then (-1 : GaussianInt) else 1) =
      (if pb then (-1 : GaussianInt) else 1) *
        ((if pa then (-1 : GaussianInt) else 1) * tt) := by
  rcases h with h | h <;> subst h <;> cases pa <;> cases pb <;> decide

/-- Bridging lemma: when the accumulated scalar is real, the row written by
`row_mult` stores exactly the scaled tensor product (row b)·(row a). -/
theorem stRow_row_mult_eq (S : SymplecticTableau n) (a b : Fin (2 * n))
    (c : GaussianInt)
    (h : S.rowMultTotal a b c = 1 ∨ S.rowMultTotal a b c = -1) :
    (S.row_mult a b c).stRow b =
      QubitPauliTensor.qscale c ((S.stRow b).mul (S.stRow a)) := by
  refine qptExt ?_ ?_
  · show (if (S.row_mult a b c).phase b then (-1 : GaussianInt) else 1) = _
    have hphase : (S.row_mult a b c).phase b =
        xor (decide (S.rowMultTotal a b c = -1)) (xor (S.phase a) (S.phase b)) := by
      unfold SymplecticTableau.row_mult
      simp
    rw [hphase]
    have hrhs :
        (QubitPauliTensor.qscale c ((S.stRow b).mul (S.stRow a))).coeff =
          (if S.phase b then (-1 : GaussianInt) else 1) *
            ((if S.phase a then (-1 : GaussianInt) else 1) *
              S.rowMultTotal a b c) := by
      rw [QubitPauliTensor.qscale, QubitPauliTensor.mul_coeff]
      show c * ((if S.phase b then (-1 : GaussianInt) else 1) *
        (if S.phase a then (-1 : GaussianInt) else 1) *
        QubitPauliTensor.prodPhase (S.stRow b).string (S.stRow a).string) = _
      unfold SymplecticTableau.rowMultTotal
      unfold QubitPauliTensor.prodPhase
      show c * (_ * _ * ∏ j : Fin n, phaseMul (S.rowPauli b j) (S.rowPauli a j)) = _
      ring
    rw [hrhs]
    exact sign_phase_eq (S.phase a) (S.phase b) _ h
  · show (fun j => (S.row_mult a b c).rowPauli b j) = _
    funext j
    show (S.row_mult a b c).rowPauli b j =
      pauliMul ((S.stRow b).string j) ((S.stRow a).string j)
    unfold SymplecticTableau.row_mult SymplecticTableau.rowPauli
      SymplecticTableau.stRow
    simp only [if_pos rfl]
    show pauliOfBits (xor (S.xmat b j) (S.xmat a j))
        (xor (S.zmat b j) (S.zmat a j)) =
      pauliMul (pauliOfBits (S.xmat b j) (S.zmat b j))
        (pauliOfBits (S.xmat a j) (S.zmat a j))
    unfold pauliMul
    rw [xbit_pauliOfBits, xbit_pauliOfBits, zbit_pauliOfBits, zbit_pauliOfBits]

/-- The accumulated `row_mult` scalar as a power of i. -/
theorem rowMultTotal_eq_iPow (S : SymplecticTableau n) (a b : Fin (2 * n))
    (c : GaussianInt) :
    S.rowMultTotal a b c =
      c * iPow (∑ j : Fin n, cellExp (S.rowPauli b j) (S.rowPauli a j)) := by
  unfold SymplecticTableau.rowMultTotal
  rw [iPow_sum]
  congr 1
  exact Finset.prod_congr rfl (fun j _ => phaseMul_eq_iPow _ _)

/-- The parity of the accumulated phase exponent is the symplectic form of
the two rows. -/
theorem z4parity_row_cellExp (S : SymplecticTableau n) (a b : Fin (2 * n)) :
    z4parity (∑ j : Fin n, cellExp (S.rowPauli b j) (S.rowPauli a j)) =
      S.sympForm b a := by
  rw [z4parity_sum]
  unfold SymplecticTableau.sympForm
  refine Finset.sum_congr rfl (fun j _ => ?_)
  rw [z4parity_cellExp]
  unfold SymplecticTableau.rowPauli
  rw [xbit_pauliOfBits, xbit_pauliOfBits, zbit_pauliOfBits, zbit_pauliOfBits]

/-- The parity of the anticommutation count of two rows is their symplectic
form. -/
theorem z4parity_row_acSum (S : SymplecticTableau n) (r s : Fin (2 * n)) :
    z4parity (QubitPauliTensor.acSum (S.stRow r).string (S.stRow s).string) =
      S.sympForm r s := by
  unfold QubitPauliTensor.acSum
  rw [z4parity_sum]
  unfold SymplecticTableau.sympForm
  refine Finset.sum_congr rfl (fun j _ => ?_)
  show z4parity (QubitPauliTensor.acInd (S.rowPauli r j) (S.rowPauli s j)) = _
  rw [z4parity_acInd]
  unfold SymplecticTableau.rowPauli
  rw [xbit_pauliOfBits, xbit_pauliOfBits, zbit_pauliOfBits, zbit_pauliOfBits]

/-- A `ZMod 4` value of parity 0 is annihilated by doubling. -/
theorem two_mul_of_parity_zero (k : ZMod 4) (h : z4parity k = 0) :
    2 * k = 0 := by
  revert k; decide

/-- A `ZMod 4` value of parity 1 doubles to 2. -/
theorem two_mul_of_parity_one (k : ZMod 4) (h : z4parity k = 1) :
    2 * k = 2 := by
  revert k; decide

/-- Row tensors with symplectic form 0 commute. -/
theorem stRow_mul_comm (S : SymplecticTableau n) (r s : Fin (2 * n))
    (h : S.sympForm r s = 0) :
    (S.stRow r).mul (S.stRow s) = (S.stRow s).mul (S.stRow r) := by
  refine QubitPauliTensor.mul_comm_of_even _ _ ?_
  refine two_mul_of_parity_zero _ ?_
  rw [z4parity_row_acSum]
  exact h

/-- Anticommuting row tensors (symplectic form 1) flip a sign when
swapped. -/
theorem stRow_mul_swap (S : SymplecticTableau n) (r s : Fin (2 * n))
    (h : S.sympForm r s = 1) :
    (S.stRow r).mul (S.stRow s) =
      QubitPauliTensor.qscale (-1) ((S.stRow s).mul (S.stRow r)) := by
  rw [QubitPauliTensor.mul_comm_sign (S.stRow r) (S.stRow s)]
  have : 2 * QubitPauliTensor.acSum (S.stRow r).string (S.stRow s).string =
      2 := by
    refine two_mul_of_parity_one _ ?_
    rw [z4parity_row_acSum]; exact h
  rw [this]
  have : iPow 2 = -1 := by decide
  rw [this]

/-- With coefficient i and anticommuting rows the accumulated scalar is
real. -/
theorem rowMultTotal_real_of_form_one (S : SymplecticTableau n)
    (a b : Fin (2 * n)) (h : S.sympForm b a = 1) :
    S.rowMultTotal a b iG = 1 ∨ S.rowMultTotal a b iG = -1 := by
  rw [rowMultTotal_eq_iPow]
  have hp : z4parity (∑ j : Fin n, cellExp (S.rowPauli b j) (S.rowPauli a j))
      = 1 := by rw [z4parity_row_cellExp]; exact h
  have hk : (∑ j : Fin n, cellExp (S.rowPauli b j) (S.rowPauli a j)) = 1 ∨
      (∑ j : Fin n, cellExp (S.rowPauli b j) (S.rowPauli a j)) = 3 := by
    revert hp
    generalize (∑ j : Fin n, cellExp (S.rowPauli b j) (S.rowPauli a j)) = k
    revert k; decide
  rcases hk with hk | hk <;> rw [hk]
  · right; decide
  · left; decide

/-- With coefficient 1 and commuting rows the accumulated scalar is
real. -/
theorem rowMultTotal_real_of_form_zero (S : SymplecticTableau n)
    (a b : Fin (2 * n)) (h : S.sympForm b a = 0) :
    S.rowMultTotal a b 1 = 1 ∨ S.rowMultTotal a b 1 = -1 := by
  rw [rowMultTotal_eq_iPow]
  have hp : z4parity (∑ j : Fin n, cellExp (S.rowPauli b j) (S.rowPauli a j))
      = 0 := by rw [z4parity_row_cellExp]; exact h
  have hk : (∑ j : Fin n, cellExp (S.rowPauli b j) (S.rowPauli a j)) = 0 ∨
      (∑ j : Fin n, cellExp (S.rowPauli b j) (S.rowPauli a j)) = 2 := by
    revert hp
    generalize (∑ j : Fin n, cellExp (S.rowPauli b j) (S.rowPauli a j)) = k
    revert k; decide
  rcases hk with hk | hk <;> rw [hk]
  · left; decide
  · right; decide

end FoldMachinery

section RowProductEval

open QubitPauliTensor

variable {n : ℕ}

/-- Scaling by 1 is the identity. -/
theorem qscale_one (t : QubitPauliTensor n) : qscale 1 t = t := by
  refine qptExt ?_ rfl
  show 1 * t.coeff = t.coeff
  ring

/-- Nested scalings multiply. -/
theorem qscale_qscale (c d : GaussianInt) (t : QubitPauliTensor n) :
    qscale c (qscale d t) = qscale (c * d) t := by
  refine qptExt ?_ rfl
  show c * (d * t.coeff) = c * d * t.coeff
  ring

/-- Multiplying out of a bare-coefficient tensor is scaling. -/
theorem tCo_mul (co : GaussianInt) (t : QubitPauliTensor n) :
    (⟨co, fun _ => Pauli.I⟩ : QubitPauliTensor n).mul t = qscale co t := by
  refine qptExt ?_ ?_
  · rw [mul_coeff]
    show co * t.coeff * prodPhase (fun _ => Pauli.I) t.string = co * t.coeff
    rw [prodPhase_I_left]; ring
  · rw [mul_string]
    funext j
    exact pauliMul_I_left _

/-- The single-qubit identity tensor is the unit tensor. -/
theorem singleP_I (q : Fin n) : singleP q Pauli.I = tOne n := by
  refine qptExt rfl ?_
  funext j
  show (if j = q then Pauli.I else Pauli.I) = Pauli.I
  split <;> rfl

/-- Multiplying by a single-qubit tensor at a slot the accumulator leaves
blank just writes the Pauli there. -/
theorem mul_singleP_of_I (acc : QubitPauliTensor n) (a : Fin n) (p : Pauli)
    (h : acc.string a = Pauli.I) :
    acc.mul (singleP a p) =
      ⟨acc.coeff, fun j => if j = a then p else acc.string j⟩ := by
  refine qptExt ?_ ?_
  · rw [mul_coeff]
    show acc.coeff * 1 * prodPhase acc.string (singleP a p).string = acc.coeff
    have : prodPhase acc.string (singleP a p).string = 1 := by
      unfold prodPhase
      refine Finset.prod_eq_one (fun j _ => ?_)
      show phaseMul (acc.string j) (if j = a then p else Pauli.I) = 1
      by_cases hj : j = a
      · subst hj
        rw [if_pos rfl, h, phaseMul_I_left]
      · rw [if_neg hj, phaseMul_I_right]
    rw [this]; ring
  · rw [mul_string]
    funext j
    show pauliMul (acc.string j) (if j = a then p else Pauli.I) =
      if j = a then p else acc.string j
    by_cases hj : j = a
    · subst hj
      rw [if_pos rfl, if_pos rfl, h, pauliMul_I_left]
    · rw [if_neg hj, if_neg hj, pauliMul_I_right]

/-- Re-keying distributes over products. -/
theorem reindex_mul (π : Equiv.Perm (Fin n)) (t1 t2 : QubitPauliTensor n) :
    (reindex π t1).mul (reindex π t2) = reindex π (t1.mul t2) := by
  refine qptExt ?_ rfl
  rw [mul_coeff]
  show t1.coeff * t2.coeff *
      prodPhase (fun q => t1.string (π q)) (fun q => t2.string (π q)) =
    t1.coeff * t2.coeff * prodPhase t1.string t2.string
  congr 1
  unfold prodPhase
  exact Equiv.prod_comp π (fun j => phaseMul (t1.string j) (t2.string j))

/-- Re-keying commutes with scaling. -/
theorem reindex_qscale (π : Equiv.Perm (Fin n)) (c : GaussianInt)
    (t : QubitPauliTensor n) :
    reindex π (qscale c t) = qscale c (reindex π t) := rfl

/-- `get_xrow` is the bound row's tensor re-keyed by the binding. -/
theorem get_xrow_eq_reindex (T : UnitaryTableau n) (qb : Fin n) :
    T.get_xrow qb =
      QubitPauliTensor.reindex T.perm (T.tab.stRow (xIdx (T.perm qb))) := rfl

/-- `get_zrow` is the bound row's tensor re-keyed by the binding. -/
theorem get_zrow_eq_reindex (T : UnitaryTableau n) (qb : Fin n) :
    T.get_zrow qb =
      QubitPauliTensor.reindex T.perm (T.tab.stRow (zIdx (T.perm qb))) := rfl

/-- The sign test on a conditional sign recovers the condition. -/
theorem decide_sgn (b : Bool) :
    decide ((if b then (-1 : GaussianInt) else 1) = -1) = b := by
  cases b <;> decide

/-- Conditional signs are real units. -/
theorem isRealUnit_sgn (b : Bool) :
    UnitaryTableau.isRealUnit (if b then (-1 : GaussianInt) else 1) = true := by
  cases b <;> decide

/-- Pushing a single-X tensor through a tableau picks out the X row. -/
theorem grp_ite_X (T : UnitaryTableau n) (qi : Fin n) (co : GaussianInt) :
    T.get_row_product ⟨co, fun j => if j = qi then Pauli.X else Pauli.I⟩ =
      qscale co (T.get_xrow qi) := by
  rw [get_row_product_eq_fold]
  have hfold := foldl_mul_single
    (fun q => T.rowFactor (if q = qi then Pauli.X else Pauli.I) q)
    (List.finRange n) qi (List.nodup_finRange n) (List.mem_finRange qi)
    (fun q _ hq => by
      show T.rowFactor _ q = tOne n
      rw [if_neg hq]; rfl)
    ⟨co, fun _ => Pauli.I⟩
  rw [hfold]
  show (⟨co, fun _ => Pauli.I⟩ : QubitPauliTensor n).mul
    (T.rowFactor (if qi = qi then _ else Pauli.I) qi) = _
  rw [if_pos rfl]
  exact tCo_mul co _

/-- Pushing a single-Z tensor through a tableau picks out the Z row. -/
theorem grp_ite_Z (T : UnitaryTableau n) (qi : Fin n) (co : GaussianInt) :
    T.get_row_product ⟨co, fun j => if j = qi then Pauli.Z else Pauli.I⟩ =
      qscale co (T.get_zrow qi) := by
  rw [get_row_product_eq_fold]
  have hfold := foldl_mul_single
    (fun q => T.rowFactor (if q = qi then Pauli.Z else Pauli.I) q)
    (List.finRange n) qi (List.nodup_finRange n) (List.mem_finRange qi)
    (fun q _ hq => by
      show T.rowFactor _ q = tOne n
      rw [if_neg hq]; rfl)
    ⟨co, fun _ => Pauli.I⟩
  rw [hfold]
  show (⟨co, fun _ => Pauli.I⟩ : QubitPauliTensor n).mul
    (T.rowFactor (if qi = qi then _ else Pauli.I) qi) = _
  rw [if_pos rfl]
  exact tCo_mul co _

/-- Pushing a single-Y tensor through a tableau multiplies the X and Z rows
with an i. -/
theorem grp_ite_Y (T : UnitaryTableau n) (qi : Fin n) (co : GaussianInt) :
    T.get_row_product ⟨co, fun j => if j = qi then Pauli.Y else Pauli.I⟩ =
      qscale (co * iG) ((T.get_xrow qi).mul (T.get_zrow qi)) := by
  rw [get_row_product_eq_fold]
  have hfold := foldl_mul_single
    (fun q => T.rowFactor (if q = qi then Pauli.Y else Pauli.I) q)
    (List.finRange n) qi (List.nodup_finRange n) (List.mem_finRange qi)
    (fun q _ hq => by
      show T.rowFactor _ q = tOne n
      rw [if_neg hq]; rfl)
    ⟨co, fun _ => Pauli.I⟩
  rw [hfold]
  show (⟨co, fun _ => Pauli.I⟩ : QubitPauliTensor n).mul
    (T.rowFactor (if qi = qi then Pauli.Y else Pauli.I) qi) = _
  rw [if_pos rfl]
  show (⟨co, fun _ => Pauli.I⟩ : QubitPauliTensor n).mul
      (((T.get_xrow qi).mul (T.get_zrow qi)).scaleI) = _
  rw [scaleI_eq_qscale, tCo_mul, qscale_qscale]

/-- Pushing a two-X tensor through a tableau multiplies the two X rows
(in either order: they are required to commute). -/
theorem grp_ite_XX (T : UnitaryTableau n) (c t : Fin n) (hct : c ≠ t)
    (co : GaussianInt)
    (hcomm : (T.get_xrow c).mul (T.get_xrow t) =
      (T.get_xrow t).mul (T.get_xrow c)) :
    T.get_row_product
        ⟨co, fun j => if j = c then Pauli.X
          else if j = t then Pauli.X else Pauli.I⟩ =
      qscale co ((T.get_xrow c).mul (T.get_xrow t)) := by
  rw [get_row_product_eq_fold]
  have hfc : T.rowFactor
      (if c = c then Pauli.X else if c = t then Pauli.X else Pauli.I) c =
      T.get_xrow c := by rw [if_pos rfl]; rfl
  have hft : T.rowFactor
      (if t = c then Pauli.X else if t = t then Pauli.X else Pauli.I) t =
      T.get_xrow t := by
    rw [if_neg (fun h => hct h.symm), if_pos rfl]; rfl
  have hfold := foldl_mul_pair
    (fun q => T.rowFactor
      (if q = c then Pauli.X else if q = t then Pauli.X else Pauli.I) q)
    (List.finRange n) c t hct (List.nodup_finRange n)
    (List.mem_finRange c) (List.mem_finRange t)
    (fun q _ hqc hqt => by
      show T.rowFactor _ q = tOne n
      rw [if_neg hqc, if_neg hqt]; rfl)
    (by
      show (T.rowFactor _ c).mul (T.rowFactor _ t) =
        (T.rowFactor _ t).mul (T.rowFactor _ c)
      rw [hfc, hft]; exact hcomm)
    ⟨co, fun _ => Pauli.I⟩
  rw [hfold]
  show ((⟨co, fun _ => Pauli.I⟩ : QubitPauliTensor n).mul
    (T.rowFactor _ c)).mul (T.rowFactor _ t) = _
  rw [hfc, hft, tCo_mul, qscale_mul]

/-- Pushing a two-Z tensor through a tableau multiplies the two Z rows. -/
theorem grp_ite_ZZ (T : UnitaryTableau n) (c t : Fin n) (hct : c ≠ t)
    (co : GaussianInt)
    (hcomm : (T.get_zrow c).mul (T.get_zrow t) =
      (T.get_zrow t).mul (T.get_zrow c)) :
    T.get_row_product
        ⟨co, fun j => if j = c then Pauli.Z
          else if j = t then Pauli.Z else Pauli.I⟩ =
      qscale co ((T.get_zrow c).mul (T.get_zrow t)) := by
  rw [get_row_product_eq_fold]
  have hfc : T.rowFactor
      (if c = c then Pauli.Z else if c = t then Pauli.Z else Pauli.I) c =
      T.get_zrow c := by rw [if_pos rfl]; rfl
  have hft : T.rowFactor
      (if t = c then Pauli.Z else if t = t then Pauli.Z else Pauli.I) t =
      T.get_zrow t := by
    rw [if_neg (fun h => hct h.symm), if_pos rfl]; rfl
  have hfold := foldl_mul_pair
    (fun q => T.rowFactor
      (if q = c then Pauli.Z else if q = t then Pauli.Z else Pauli.I) q)
    (List.finRange n) c t hct (List.nodup_finRange n)
    (List.mem_finRange c) (List.mem_finRange t)
    (fun q _ hqc hqt => by
      show T.rowFactor _ q = tOne n
      rw [if_neg hqc, if_neg hqt]; rfl)
    (by
      show (T.rowFactor _ c).mul (T.rowFactor _ t) =
        (T.rowFactor _ t).mul (T.rowFactor _ c)
      rw [hfc, hft]; exact hcomm)
    ⟨co, fun _ => Pauli.I⟩
  rw [hfold]
  show ((⟨co, fun _ => Pauli.I⟩ : QubitPauliTensor n).mul
    (T.rowFactor _ c)).mul (T.rowFactor _ t) = _
  rw [hfc, hft, tCo_mul, qscale_mul]

/-- Pushing any tensor through the identity tableau returns it
unchanged. -/
theorem grp_identity (t : QubitPauliTensor n) :
    (UnitaryTableau.identity n).get_row_product t = t := by
  rw [get_row_product_eq_fold]
  have hfac : ∀ (p : Pauli) (q : Fin n),
      (UnitaryTableau.identity n).rowFactor p q = singleP q p := by
    intro p q
    have hx : (UnitaryTableau.identity n).get_xrow q = singleP q Pauli.X := by
      refine qptExt rfl ?_
      funext j
      show (UnitaryTableau.identity n).tab.rowPauli (xIdx _) _ = _
      unfold UnitaryTableau.identity SymplecticTableau.rowPauli
      simp only [Equiv.Perm.one_apply]
      show pauliOfBits (decide (q.val = j.val))
          (decide (q.val = n + j.val)) = _
      have hz : decide (q.val = n + j.val) = false := by
        simp only [decide_eq_false_iff_not]
        omega
      rw [hz]
      show pauliOfBits (decide (q.val = j.val)) false =
        if j = q then Pauli.X else Pauli.I
      by_cases hj : j = q
      · subst hj
        rw [if_pos rfl]
        simp [pauliOfBits]
      · rw [if_neg hj]
        have : decide (q.val = j.val) = false := by
          simp only [decide_eq_false_iff_not]
          exact fun h => hj (Fin.ext h.symm)
        rw [this]
        rfl
    have hz : (UnitaryTableau.identity n).get_zrow q = singleP q Pauli.Z := by
      refine qptExt rfl ?_
      funext j
      show (UnitaryTableau.identity n).tab.rowPauli (zIdx _) _ = _
      unfold UnitaryTableau.identity SymplecticTableau.rowPauli
      simp only [Equiv.Perm.one_apply]
      show pauliOfBits (decide (n + q.val = j.val))
          (decide (n + q.val = n + j.val)) = _
      have hxb : decide (n + q.val = j.val) = false := by
        simp only [decide_eq_false_iff_not]
        omega
      rw [hxb]
      show pauliOfBits false (decide (n + q.val = n + j.val)) =
        if j = q then Pauli.Z else Pauli.I
      by_cases hj : j = q
      · subst hj
        rw [if_pos rfl]
        simp [pauliOfBits]
      · rw [if_neg hj]
        have : decide (n + q.val = n + j.val) = false := by
          simp only [decide_eq_false_iff_not]
          intro h
          exact hj (Fin.ext (by omega))
        rw [this]
        rfl
    cases p with
    | I => rw [singleP_I]; rfl
    | X => exact hx
    | Z => exact hz
    | Y =>
        show (((UnitaryTableau.identity n).get_xrow q).mul
          ((UnitaryTableau.identity n).get_zrow q)).scaleI = _
        rw [hx, hz]
        have hmul : (singleP q Pauli.X).mul (singleP q Pauli.Z) =
            qscale (-iG) (singleP q Pauli.Y) := by
          refine qptExt ?_ ?_
          · rw [mul_coeff]
            show 1 * 1 * prodPhase (singleP q Pauli.X).string
                (singleP q Pauli.Z).string = -iG * 1
            unfold prodPhase
            have : ∀ j : Fin n,
                phaseMul ((singleP q Pauli.X).string j)
                  ((singleP q Pauli.Z).string j) =
                if j = q then -iG else 1 := by
              intro j
              show phaseMul (if j = q then Pauli.X else Pauli.I)
                  (if j = q then Pauli.Z else Pauli.I) = _
              by_cases hj : j = q
              · rw [if_pos hj, if_pos hj, if_pos hj]; rfl
              · rw [if_neg hj, if_neg hj, if_neg hj]; rfl
            rw [Finset.prod_congr rfl (fun j _ => this j)]
            rw [Finset.prod_ite_eq' Finset.univ q (fun _ => -iG)]
            rw [if_pos (Finset.mem_univ q)]
            ring
          · rw [mul_string]
            funext j
            show pauliMul (if j = q then Pauli.X else Pauli.I)
                (if j = q then Pauli.Z else Pauli.I) =
              (if j = q then Pauli.Y else Pauli.I)
            by_cases hj : j = q
            · rw [if_pos hj, if_pos hj, if_pos hj]; rfl
            · rw [if_neg hj, if_neg hj, if_neg hj]; rfl
        rw [hmul, scaleI_eq_qscale, qscale_qscale]
        have : iG * -iG = 1 := by decide
        rw [this, qscale_one]
  have hfun :
      (fun (acc : QubitPauliTensor n) (q : Fin n) =>
        acc.mul ((UnitaryTableau.identity n).rowFactor (t.string q) q)) =
      fun (acc : QubitPauliTensor n) (q : Fin n) =>
        acc.mul (singleP q (t.string q)) := by
    funext acc q
    rw [hfac]
  rw [hfun]
  have hrebuild : ∀ (l : List (Fin n)), l.Nodup →
      ∀ (acc : QubitPauliTensor n), (∀ q ∈ l, acc.string q = Pauli.I) →
      l.foldl (fun a q => a.mul (singleP q (t.string q))) acc =
        ⟨acc.coeff, fun q => if q ∈ l then t.string q else acc.string q⟩ := by
    intro l
    induction l with
    | nil =>
        intro _ acc _
        refine qptExt rfl ?_
        funext q
        simp
    | cons a l ih =>
        intro hnd acc hI
        have ha : acc.string a = Pauli.I := hI a (List.mem_cons_self a l)
        simp only [List.foldl_cons]
        rw [mul_singleP_of_I acc a (t.string a) ha]
        have hanotin : a ∉ l := (List.nodup_cons.mp hnd).1
        rw [ih (List.nodup_cons.mp hnd).2 _
          (fun q hq => by
            show (if q = a then t.string a else acc.string q) = Pauli.I
            rw [if_neg (fun (h : q = a) => hanotin (h ▸ hq))]
            exact hI q (List.mem_cons_of_mem a hq))]
        refine qptExt rfl ?_
        funext q
        show (if q ∈ l then t.string q
            else if q = a then t.string a else acc.string q) =
          if q ∈ a :: l then t.string q else acc.string q
        by_cases hql : q ∈ l
        · rw [if_pos hql, if_pos (List.mem_cons_of_mem a hql)]
        · rw [if_neg hql]
          by_cases hqa : q = a
          · subst hqa
            rw [if_pos rfl, if_pos (List.mem_cons_self q l)]
          · rw [if_neg hqa, if_neg (by
              intro h
              rcases List.mem_cons.mp h with h | h
              · exact hqa h
              · exact hql h)]
  rw [hrebuild (List.finRange n) (List.nodup_finRange n) _
    (fun q _ => rfl)]
  refine qptExt rfl ?_
  funext q
  show (if q ∈ List.finRange n then t.string q else Pauli.I) = t.string q
  rw [if_pos (List.mem_finRange q)]

/-- Rewriting a boolean `decide` condition to an equivalent proposition. -/
theorem ite_decide_iff {α : Type} (p q : Prop) [Decidable p] [Decidable q]
    (h : p ↔ q) (x y : α) :
    (if decide p = true then x else y) = if q then x else y := by
  by_cases hq : q
  · rw [if_pos (decide_eq_true (h.mpr hq)), if_pos hq]
  · rw [if_neg (by simp only [decide_eq_true_eq]; exact fun hp => hq (h.mp hp)),
      if_neg hq]

/-- Discharging a false boolean `decide` condition. -/
theorem ite_decide_false {α : Type} (p : Prop) [Decidable p] (h : ¬p)
    (x y : α) : (if decide p = true then x else y) = y := by
  rw [if_neg (by simp only [decide_eq_true_eq]; exact h)]

/-- The X row of the identity tableau is a bare X. -/
theorem identity_get_xrow (n : ℕ) (q : Fin n) :
    (UnitaryTableau.identity n).get_xrow q = singleP q Pauli.X := by
  refine qptExt rfl ?_
  funext j
  show (UnitaryTableau.identity n).tab.rowPauli (xIdx _) _ = _
  unfold UnitaryTableau.identity SymplecticTableau.rowPauli
  simp only [Equiv.Perm.one_apply]
  show pauliOfBits (decide (q.val = j.val)) (decide (q.val = n + j.val)) =
    (singleP q Pauli.X).string j
  have hz : decide (q.val = n + j.val) = false := by
    simp only [decide_eq_false_iff_not]
    omega
  rw [hz]
  show pauliOfBits (decide (q.val = j.val)) false =
    if j = q then Pauli.X else Pauli.I
  by_cases hj : j = q
  · subst hj
    rw [if_pos rfl]
    simp [pauliOfBits]
  · rw [if_neg hj]
    have : decide (q.val = j.val) = false := by
      simp only [decide_eq_false_iff_not]
      exact fun h => hj (Fin.ext h.symm)
    rw [this]
    rfl

/-- The Z row of the identity tableau is a bare Z. -/
theorem identity_get_zrow (n : ℕ) (q : Fin n) :
    (UnitaryTableau.identity n).get_zrow q = singleP q Pauli.Z := by
  refine qptExt rfl ?_
  funext j
  show (UnitaryTableau.identity n).tab.rowPauli (zIdx _) _ = _
  unfold UnitaryTableau.identity SymplecticTableau.rowPauli
  simp only [Equiv.Perm.one_apply]
  show pauliOfBits (decide (n + q.val = j.val)) (decide (n + q.val = n + j.val))
    = (singleP q Pauli.Z).string j
  have hxb : decide (n + q.val = j.val) = false := by
    simp only [decide_eq_false_iff_not]
    omega
  rw [hxb]
  show pauliOfBits false (decide (n + q.val = n + j.val)) =
    if j = q then Pauli.Z else Pauli.I
  by_cases hj : j = q
  · subst hj
    rw [if_pos rfl]
    simp [pauliOfBits]
  · rw [if_neg hj]
    have : decide (n + q.val = n + j.val) = false := by
      simp only [decide_eq_false_iff_not]
      intro h
      exact hj (Fin.ext (by omega))
    rw [this]
    rfl

/-- The identity tableau is symplectic. -/
theorem identity_isSymplectic (n : ℕ) :
    (UnitaryTableau.identity n).tab.isSymplectic := by
  intro i j
  have hsum1 : ∀ a b : Fin n,
      (∑ k : Fin n,
        (if a = k then (1 : ZMod 2) else 0) * (if b = k then 1 else 0)) =
      if a = b then 1 else 0 := by
    intro a b
    have hterm : ∀ k : Fin n,
        (if a = k then (1 : ZMod 2) else 0) * (if b = k then 1 else 0) =
        if a = k then (if b = k then (1 : ZMod 2) else 0) else 0 := by
      intro k
      by_cases hak : a = k
      · rw [if_pos hak, if_pos hak, one_mul]
      · rw [if_neg hak, if_neg hak, zero_mul]
    rw [Finset.sum_congr rfl (fun k _ => hterm k), Finset.sum_ite_eq]
    rw [if_pos (Finset.mem_univ a)]
    by_cases hab : a = b
    · rw [if_pos hab, if_pos hab.symm]
    · rw [if_neg hab, if_neg (fun h => hab h.symm)]
  refine ⟨?_, ?_, ?_⟩
  · show (∑ k : Fin n, _) = _
    have : ∀ k : Fin n,
        ((if (UnitaryTableau.identity n).tab.xmat (xIdx i) k then (1 : ZMod 2)
            else 0) *
          (if (UnitaryTableau.identity n).tab.zmat (zIdx j) k then 1 else 0) +
        (if (UnitaryTableau.identity n).tab.xmat (zIdx j) k then 1 else 0) *
          (if (UnitaryTableau.identity n).tab.zmat (xIdx i) k then 1 else 0)) =
        (if i = k then (1 : ZMod 2) else 0) * (if j = k then 1 else 0) := by
      intro k
      show ((if decide (i.val = k.val) = true then (1 : ZMod 2) else 0) *
          (if decide (n + j.val = n + k.val) = true then 1 else 0) +
        (if decide (n + j.val = k.val) = true then 1 else 0) *
          (if decide (i.val = n + k.val) = true then 1 else 0)) = _
      rw [ite_decide_iff _ (i = k) (by rw [Fin.ext_iff]) (1 : ZMod 2) 0,
        ite_decide_iff _ (j = k)
          (by rw [Fin.ext_iff]; omega) (1 : ZMod 2) 0,
        ite_decide_false _ (by omega) (1 : ZMod 2) 0,
        ite_decide_false _ (by omega) (1 : ZMod 2) 0]
      rw [zero_mul, add_zero]
    rw [Finset.sum_congr rfl (fun k _ => this k), hsum1 i j]
  · show (∑ k : Fin n, _) = _
    have : ∀ k : Fin n,
        ((if (UnitaryTableau.identity n).tab.xmat (xIdx i) k then (1 : ZMod 2)
            else 0) *
          (if (UnitaryTableau.identity n).tab.zmat (xIdx j) k then 1 else 0) +
        (if (UnitaryTableau.identity n).tab.xmat (xIdx j) k then 1 else 0) *
          (if (UnitaryTableau.identity n).tab.zmat (xIdx i) k then 1 else 0)) =
        0 := by
      intro k
      show ((if decide (i.val = k.val) = true then (1 : ZMod 2) else 0) *
          (if decide (j.val = n + k.val) = true then 1 else 0) +
        (if decide (j.val = k.val) = true then 1 else 0) *
          (if decide (i.val = n + k.val) = true then 1 else 0)) = 0
      rw [ite_decide_false (j.val = n + k.val) (by omega) (1 : ZMod 2) 0,
        ite_decide_false (i.val = n + k.val) (by omega) (1 : ZMod 2) 0]
      rw [mul_zero, mul_zero, add_zero]
    rw [Finset.sum_congr rfl (fun k _ => this k), Finset.sum_const_zero]
  · show (∑ k : Fin n, _) = _
    have : ∀ k : Fin n,
        ((if (UnitaryTableau.identity n).tab.xmat (zIdx i) k then (1 : ZMod 2)
            else 0) *
          (if (UnitaryTableau.identity n).tab.zmat (zIdx j) k then 1 else 0) +
        (if (UnitaryTableau.identity n).tab.xmat (zIdx j) k then 1 else 0) *
          (if (UnitaryTableau.identity n).tab.zmat (zIdx i) k then 1 else 0)) =
        0 := by
      intro k
      show ((if decide (n + i.val = k.val) = true then (1 : ZMod 2) else 0) *
          (if decide (n + j.val = n + k.val) = true then 1 else 0) +
        (if decide (n + j.val = k.val) = true then 1 else 0) *
          (if decide (n + i.val = n + k.val) = true then 1 else 0)) = 0
      rw [ite_decide_false (n + i.val = k.val) (by omega) (1 : ZMod 2) 0,
        ite_decide_false (n + j.val = k.val) (by omega) (1 : ZMod 2) 0]
      rw [zero_mul, zero_mul, add_zero]
    rw [Finset.sum_congr rfl (fun k _ => this k), Finset.sum_const_zero]

/-- X-image and Z-image row indices never collide. -/
theorem xIdx_ne_zIdx {n : ℕ} (a b : Fin n) : xIdx a ≠ zIdx b := by
  intro h
  have h2 := congrArg Fin.val h
  simp only [xIdx, zIdx] at h2
  omega

/-- Z-image and X-image row indices never collide. -/
theorem zIdx_ne_xIdx {n : ℕ} (a b : Fin n) : zIdx a ≠ xIdx b :=
  fun h => xIdx_ne_zIdx b a h.symm

/-- X-image row indices of distinct qubits are distinct. -/
theorem xIdx_ne_of_ne {n : ℕ} {a b : Fin n} (h : a ≠ b) : xIdx a ≠ xIdx b := by
  intro hh
  have h2 := congrArg Fin.val hh
  simp only [xIdx] at h2
  exact h (Fin.ext h2)

/-- Z-image row indices of distinct qubits are distinct. -/
theorem zIdx_ne_of_ne {n : ℕ} {a b : Fin n} (h : a ≠ b) : zIdx a ≠ zIdx b := by
  intro hh
  have h2 := congrArg Fin.val hh
  simp only [zIdx] at h2
  exact h (Fin.ext (by omega))

/-- The symplectic form is symmetric. -/
theorem sympForm_comm {n : ℕ} (S : SymplecticTableau n) (r s : Fin (2 * n)) :
    S.sympForm r s = S.sympForm s r :=
  Finset.sum_congr rfl (fun _ _ => add_comm _ _)

/-- Unwritten rows of `row_mult` keep their x bits. -/
theorem row_mult_xmat_ne {n : ℕ} (S : SymplecticTableau n)
    (a b r : Fin (2 * n)) (c : GaussianInt) (j : Fin n) (h : r ≠ b) :
    (S.row_mult a b c).xmat r j = S.xmat r j := by
  unfold SymplecticTableau.row_mult
  simp [h]

/-- Unwritten rows of `row_mult` keep their z bits. -/
theorem row_mult_zmat_ne {n : ℕ} (S : SymplecticTableau n)
    (a b r : Fin (2 * n)) (c : GaussianInt) (j : Fin n) (h : r ≠ b) :
    (S.row_mult a b c).zmat r j = S.zmat r j := by
  unfold SymplecticTableau.row_mult
  simp [h]

/-- Diagonal-decide bits make a bare X. -/
theorem pauliX_of_decide {n : ℕ} (a j : Fin n) :
    pauliOfBits (decide (a.val = j.val)) false =
      if j = a then Pauli.X else Pauli.I := by
  by_cases hj : j = a
  · subst hj
    rw [if_pos rfl]
    simp [pauliOfBits]
  · rw [if_neg hj]
    have : decide (a.val = j.val) = false := by
      simp only [decide_eq_false_iff_not]
      exact fun h => hj (Fin.ext h.symm)
    rw [this]
    rfl

/-- Diagonal-decide bits make a bare Z. -/
theorem pauliZ_of_decide {n : ℕ} (a j : Fin n) :
    pauliOfBits false (decide (n + a.val = n + j.val)) =
      if j = a then Pauli.Z else Pauli.I := by
  by_cases hj : j = a
  · subst hj
    rw [if_pos rfl]
    simp [pauliOfBits]
  · rw [if_neg hj]
    have : decide (n + a.val = n + j.val) = false := by
      simp only [decide_eq_false_iff_not]
      intro h
      exact hj (Fin.ext (by omega))
    rw [this]
    rfl

section GateRows

open QubitPauliTensor

variable {n : ℕ}

/-- All phase bits of the S-gate tableau are clear. -/
theorem S_end_phase (q : Fin n) (r : Fin (2 * n)) :
    ((UnitaryTableau.identity n).apply_S_at_end q).tab.phase r = false := by
  show xor false
    (decide (r.val = q.val) && decide (r.val = n + q.val)) = false
  have hq := q.isLt
  have hcase : decide (r.val = q.val) = false ∨
      decide (r.val = n + q.val) = false := by
    by_cases h : r.val = q.val
    · right
      simp only [decide_eq_false_iff_not]
      omega
    · left
      simp only [decide_eq_false_iff_not]
      exact h
  rcases hcase with h | h <;> rw [h]
  · rw [Bool.false_and]
    rfl
  · rw [Bool.and_false]
    rfl

/-- S-gate tableau: off-qubit X rows are bare X. -/
theorem S_end_xrow_ne (q qi : Fin n) (h : qi ≠ q) :
    ((UnitaryTableau.identity n).apply_S_at_end q).get_xrow qi =
      singleP qi Pauli.X := by
  refine qptExt ?_ ?_
  · show (if ((UnitaryTableau.identity n).apply_S_at_end q).tab.phase (xIdx qi)
      then (-1 : GaussianInt) else 1) = 1
    rw [S_end_phase q (xIdx qi)]
    rfl
  · funext j
    show pauliOfBits (decide (qi.val = j.val))
        (if j = q then xor (decide (qi.val = n + j.val))
            (decide (qi.val = j.val))
          else decide (qi.val = n + j.val)) =
      (if j = qi then Pauli.X else Pauli.I)
    have hz : ∀ jv : Fin n, decide (qi.val = n + jv.val) = false := by
      intro jv
      simp only [decide_eq_false_iff_not]
      omega
    by_cases hj : j = q
    · subst hj
      have hx : decide (qi.val = j.val) = false := by
        simp only [decide_eq_false_iff_not]
        exact fun hh => h (Fin.ext hh)
      rw [if_pos rfl, hx, hz j, if_neg (fun hh : j = qi => h (Fin.ext
        (by rw [hh] at hx; simp at hx)))]
      rfl
    · rw [if_neg hj, hz j]
      exact pauliX_of_decide qi j

/-- S-gate tableau: the X row of the rotated qubit is a bare Y. -/
theorem S_end_xrow_eq (q : Fin n) :
    ((UnitaryTableau.identity n).apply_S_at_end q).get_xrow q =
      singleP q Pauli.Y := by
  refine qptExt ?_ ?_
  · show (if ((UnitaryTableau.identity n).apply_S_at_end q).tab.phase (xIdx q)
      then (-1 : GaussianInt) else 1) = 1
    rw [S_end_phase q (xIdx q)]
    rfl
  · funext j
    show pauliOfBits (decide (q.val = j.val))
        (if j = q then xor (decide (q.val = n + j.val))
            (decide (q.val = j.val))
          else decide (q.val = n + j.val)) =
      (if j = q then Pauli.Y else Pauli.I)
    have hz : decide (q.val = n + j.val) = false := by
      simp only [decide_eq_false_iff_not]
      omega
    by_cases hj : j = q
    · subst hj
      rw [if_pos rfl, if_pos rfl, hz]
      have hx : decide (j.val = j.val) = true := by simp
      rw [hx]
      rfl
    · rw [if_neg hj, if_neg hj, hz]
      have hx : decide (q.val = j.val) = false := by
        simp only [decide_eq_false_iff_not]
        exact fun hh => hj (Fin.ext hh.symm)
      rw [hx]
      rfl

/-- S-gate tableau: all Z rows are bare Z. -/
theorem S_end_zrow (q qi : Fin n) :
    ((UnitaryTableau.identity n).apply_S_at_end q).get_zrow qi =
      singleP qi Pauli.Z := by
  refine qptExt ?_ ?_
  · show (if ((UnitaryTableau.identity n).apply_S_at_end q).tab.phase (zIdx qi)
      then (-1 : GaussianInt) else 1) = 1
    rw [S_end_phase q (zIdx qi)]
    rfl
  · funext j
    show pauliOfBits (decide (n + qi.val = j.val))
        (if j = q then xor (decide (n + qi.val = n + j.val))
            (decide (n + qi.val = j.val))
          else decide (n + qi.val = n + j.val)) =
      (if j = qi then Pauli.Z else Pauli.I)
    have hx : ∀ jv : Fin n, decide (n + qi.val = jv.val) = false := by
      intro jv
      simp only [decide_eq_false_iff_not]
      omega
    by_cases hj : j = q
    · subst hj
      rw [if_pos rfl, hx j]
      rw [Bool.xor_false]
      exact pauliZ_of_decide qi j
    · rw [if_neg hj, hx j]
      exact pauliZ_of_decide qi j

/-- V-gate tableau phases: set exactly on the Z row of the rotated
qubit. -/
theorem V_end_phase (q : Fin n) (r : Fin (2 * n)) :
    ((UnitaryTableau.identity n).apply_V_at_end q).tab.phase r =
      decide (r.val = n + q.val) := by
  show xor false
    (decide (r.val = n + q.val) && !(decide (r.val = q.val))) = _
  by_cases h : r.val = n + q.val
  · have hq := q.isLt
    have hx : decide (r.val = q.val) = false := by
      simp only [decide_eq_false_iff_not]
      omega
    rw [decide_eq_true h, hx]
    rfl
  · rw [decide_eq_false h, Bool.false_and]
    rfl

/-- V-gate tableau: all X rows are bare X. -/
theorem V_end_xrow (q qi : Fin n) :
    ((UnitaryTableau.identity n).apply_V_at_end q).get_xrow qi =
      singleP qi Pauli.X := by
  refine qptExt ?_ ?_
  · show (if ((UnitaryTableau.identity n).apply_V_at_end q).tab.phase (xIdx qi)
      then (-1 : GaussianInt) else 1) = 1
    rw [V_end_phase q (xIdx qi)]
    have : decide ((xIdx qi).val = n + q.val) = false := by
      simp only [decide_eq_false_iff_not]
      show ¬ qi.val = n + q.val
      omega
    rw [this]
    rfl
  · funext j
    show pauliOfBits
        (if j = q then xor (decide (qi.val = j.val))
            (decide (qi.val = n + j.val))
          else decide (qi.val = j.val))
        (decide (qi.val = n + j.val)) =
      (if j = qi then Pauli.X else Pauli.I)
    have hz : decide (qi.val = n + j.val) = false := by
      simp only [decide_eq_false_iff_not]
      omega
    rw [hz]
    by_cases hj : j = q
    · rw [if_pos hj, Bool.xor_false]
      exact pauliX_of_decide qi j
    · rw [if_neg hj]
      exact pauliX_of_decide qi j

/-- V-gate tableau: off-qubit Z rows are bare Z. -/
theorem V_end_zrow_ne (q qi : Fin n) (h : qi ≠ q) :
    ((UnitaryTableau.identity n).apply_V_at_end q).get_zrow qi =
      singleP qi Pauli.Z := by
  refine qptExt ?_ ?_
  · show (if ((UnitaryTableau.identity n).apply_V_at_end q).tab.phase (zIdx qi)
      then (-1 : GaussianInt) else 1) = 1
    rw [V_end_phase q (zIdx qi)]
    have : decide ((zIdx qi).val = n + q.val) = false := by
      simp only [decide_eq_false_iff_not]
      show ¬ n + qi.val = n + q.val
      intro hh
      exact h (Fin.ext (by omega))
    rw [this]
    rfl
  · funext j
    show pauliOfBits
        (if j = q then xor (decide (n + qi.val = j.val))
            (decide (n + qi.val = n + j.val))
          else decide (n + qi.val = j.val))
        (decide (n + qi.val = n + j.val)) =
      (if j = qi then Pauli.Z else Pauli.I)
    have hx : ∀ jv : Fin n, decide (n + qi.val = jv.val) = false := by
      intro jv
      simp only [decide_eq_false_iff_not]
      omega
    by_cases hj : j = q
    · subst hj
      have hzz : decide (n + qi.val = n + j.val) = false := by
        simp only [decide_eq_false_iff_not]
        intro hh
        exact h (Fin.ext (by omega))
      rw [if_pos rfl, hx j, hzz]
      have : (if j = qi then Pauli.Z else Pauli.I) = Pauli.I := by
        rw [if_neg (fun hh : j = qi => h (Fin.ext (by
          have := congrArg Fin.val hh
          omega)))]
      rw [this]
      rfl
    · rw [if_neg hj, hx j]
      exact pauliZ_of_decide qi j

/-- V-gate tableau: the Z row of the rotated qubit is minus Y. -/
theorem V_end_zrow_eq (q : Fin n) :
    ((UnitaryTableau.identity n).apply_V_at_end q).get_zrow q =
      qscale (-1) (singleP q Pauli.Y) := by
  refine qptExt ?_ ?_
  · show (if ((UnitaryTableau.identity n).apply_V_at_end q).tab.phase (zIdx q)
      then (-1 : GaussianInt) else 1) = -1 * 1
    rw [V_end_phase q (zIdx q)]
    have : decide ((zIdx q).val = n + q.val) = true := by
      simp only [decide_eq_true_eq]
      rfl
    rw [this]
    show (-1 : GaussianInt) = -1 * 1
    ring
  · funext j
    show pauliOfBits
        (if j = q then xor (decide (n + q.val = j.val))
            (decide (n + q.val = n + j.val))
          else decide (n + q.val = j.val))
        (decide (n + q.val = n + j.val)) =
      (if j = q then Pauli.Y else Pauli.I)
    have hx : ∀ jv : Fin n, decide (n + q.val = jv.val) = false := by
      intro jv
      simp only [decide_eq_false_iff_not]
      omega
    by_cases hj : j = q
    · subst hj
      have hzz : decide (n + j.val = n + j.val) = true := by simp
      rw [if_pos rfl, if_pos rfl, hx j, hzz]
      rfl
    · have hzz : decide (n + q.val = n + j.val) = false := by
        simp only [decide_eq_false_iff_not]
        intro hh
        exact hj (Fin.ext (by omega))
      rw [if_neg hj, if_neg hj, hx j, hzz]
      rfl

/-- All phase bits of the CX-gate tableau are clear. -/
theorem CX_end_phase (c t : Fin n) (r : Fin (2 * n)) :
    ((UnitaryTableau.identity n).apply_CX_at_end c t).tab.phase r = false := by
  show xor false
    (decide (r.val = c.val) && decide (r.val = n + t.val) && _) = false
  have hc := c.isLt
  have hcase : decide (r.val = c.val) = false ∨
      decide (r.val = n + t.val) = false := by
    by_cases h : r.val = c.val
    · right
      simp only [decide_eq_false_iff_not]
      omega
    · left
      simp only [decide_eq_false_iff_not]
      exact h
  rcases hcase with h | h <;> rw [h]
  · rw [Bool.false_and, Bool.false_and]
    rfl
  · rw [Bool.and_false, Bool.false_and]
    rfl

/-- CX-gate tableau: the X row of the control is X on control and
target. -/
theorem CX_end_xrow_c (c t : Fin n) (hct : c ≠ t) :
    ((UnitaryTableau.identity n).apply_CX_at_end c t).get_xrow c =
      ⟨1, fun j => if j = c then Pauli.X
        else if j = t then Pauli.X else Pauli.I⟩ := by
  refine qptExt ?_ ?_
  · show (if ((UnitaryTableau.identity n).apply_CX_at_end c t).tab.phase
      (xIdx c) then (-1 : GaussianInt) else 1) = 1
    rw [CX_end_phase c t (xIdx c)]
    rfl
  · funext j
    show pauliOfBits
        (if j = t then xor (decide (c.val = j.val)) (decide (c.val = c.val))
          else decide (c.val = j.val))
        (if j = c then xor (decide (c.val = n + j.val))
            (decide (c.val = n + t.val))
          else decide (c.val = n + j.val)) =
      (if j = c then Pauli.X else if j = t then Pauli.X else Pauli.I)
    have hz : ∀ jv : Fin n, decide (c.val = n + jv.val) = false := by
      intro jv
      simp only [decide_eq_false_iff_not]
      omega
    have hzpart :
        (if j = c then xor (decide (c.val = n + j.val))
            (decide (c.val = n + t.val))
          else decide (c.val = n + j.val)) = false := by
      by_cases hj : j = c
      · rw [if_pos hj, hz j, hz t]
        rfl
      · rw [if_neg hj]
        exact hz j
    rw [hzpart]
    by_cases hjt : j = t
    · subst hjt
      have h1 : decide (c.val = j.val) = false := by
        simp only [decide_eq_false_iff_not]
        exact fun hh => hct (Fin.ext hh)
      have h2 : decide (c.val = c.val) = true := by simp
      rw [if_pos rfl, h1, h2]
      rw [if_neg (fun hh : j = c => hct (Fin.ext (by
        have := congrArg Fin.val hh
        omega))), if_pos rfl]
      rfl
    · rw [if_neg hjt]
      by_cases hjc : j = c
      · subst hjc
        have h2 : decide (j.val = j.val) = true := by simp
        rw [h2, if_pos rfl]
        rfl
      · have h1 : decide (c.val = j.val) = false := by
          simp only [decide_eq_false_iff_not]
          exact fun hh => hjc (Fin.ext hh.symm)
        rw [h1, if_neg hjc, if_neg hjt]
        rfl

/-- CX-gate tableau: X rows other than the control's are bare X. -/
theorem CX_end_xrow_ne (c t qi : Fin n) (h : qi ≠ c) :
    ((UnitaryTableau.identity n).apply_CX_at_end c t).get_xrow qi =
      singleP qi Pauli.X := by
  refine qptExt ?_ ?_
  · show (if ((UnitaryTableau.identity n).apply_CX_at_end c t).tab.phase
      (xIdx qi) then (-1 : GaussianInt) else 1) = 1
    rw [CX_end_phase c t (xIdx qi)]
    rfl
  · funext j
    show pauliOfBits
        (if j = t then xor (decide (qi.val = j.val)) (decide (qi.val = c.val))
          else decide (qi.val = j.val))
        (if j = c then xor (decide (qi.val = n + j.val))
            (decide (qi.val = n + t.val))
          else decide (qi.val = n + j.val)) =
      (if j = qi then Pauli.X else Pauli.I)
    have hz : ∀ jv : Fin n, decide (qi.val = n + jv.val) = false := by
      intro jv
      simp only [decide_eq_false_iff_not]
      omega
    have hzpart :
        (if j = c then xor (decide (qi.val = n + j.val))
            (decide (qi.val = n + t.val))
          else decide (qi.val = n + j.val)) = false := by
      by_cases hj : j = c
      · rw [if_pos hj, hz j, hz t]
        rfl
      · rw [if_neg hj]
        exact hz j
    rw [hzpart]
    have hc : decide (qi.val = c.val) = false := by
      simp only [decide_eq_false_iff_not]
      exact fun hh => h (Fin.ext hh)
    by_cases hjt : j = t
    · rw [if_pos hjt, hc, Bool.xor_false]
      exact pauliX_of_decide qi j
    · rw [if_neg hjt]
      exact pauliX_of_decide qi j

/-- CX-gate tableau: the Z row of the target is Z on control and target. -/
theorem CX_end_zrow_t (c t : Fin n) (hct : c ≠ t) :
    ((UnitaryTableau.identity n).apply_CX_at_end c t).get_zrow t =
      ⟨1, fun j => if j = c then Pauli.Z
        else if j = t then Pauli.Z else Pauli.I⟩ := by
  refine qptExt ?_ ?_
  · show (if ((UnitaryTableau.identity n).apply_CX_at_end c t).tab.phase
      (zIdx t) then (-1 : GaussianInt) else 1) = 1
    rw [CX_end_phase c t (zIdx t)]
    rfl
  · funext j
    show pauliOfBits
        (if j = t then xor (decide (n + t.val = j.val))
            (decide (n + t.val = c.val))
          else decide (n + t.val = j.val))
        (if j = c then xor (decide (n + t.val = n + j.val))
            (decide (n + t.val = n + t.val))
          else decide (n + t.val = n + j.val)) =
      (if j = c then Pauli.Z else if j = t then Pauli.Z else Pauli.I)
    have hx : ∀ jv : Fin n, decide (n + t.val = jv.val) = false := by
      intro jv
      simp only [decide_eq_false_iff_not]
      omega
    have hxpart :
        (if j = t then xor (decide (n + t.val = j.val))
            (decide (n + t.val = c.val))
          else decide (n + t.val = j.val)) = false := by
      by_cases hj : j = t
      · rw [if_pos hj, hx j, hx c]
        rfl
      · rw [if_neg hj]
        exact hx j
    rw [hxpart]
    by_cases hjc : j = c
    · subst hjc
      have h1 : decide (n + t.val = n + j.val) = false := by
        simp only [decide_eq_false_iff_not]
        intro hh
        exact hct (Fin.ext (by omega))
      have h2 : decide (n + t.val = n + t.val) = true := by simp
      rw [if_pos rfl, h1, h2, if_pos rfl]
      rfl
    · rw [if_neg hjc, if_neg hjc]
      by_cases hjt : j = t
      · subst hjt
        have h2 : decide (n + j.val = n + j.val) = true := by simp
        rw [h2, if_pos rfl]
        rfl
      · have h1 : decide (n + t.val = n + j.val) = false := by
          simp only [decide_eq_false_iff_not]
          intro hh
          exact hjt (Fin.ext (by omega))
        rw [h1, if_neg hjt]
        rfl

/-- CX-gate tableau: Z rows other than the target's are bare Z. -/
theorem CX_end_zrow_ne (c t qi : Fin n) (h : qi ≠ t) :
    ((UnitaryTableau.identity n).apply_CX_at_end c t).get_zrow qi =
      singleP qi Pauli.Z := by
  refine qptExt ?_ ?_
  · show (if ((UnitaryTableau.identity n).apply_CX_at_end c t).tab.phase
      (zIdx qi) then (-1 : GaussianInt) else 1) = 1
    rw [CX_end_phase c t (zIdx qi)]
    rfl
  · funext j
    show pauliOfBits
        (if j = t then xor (decide (n + qi.val = j.val))
            (decide (n + qi.val = c.val))
          else decide (n + qi.val = j.val))
        (if j = c then xor (decide (n + qi.val = n + j.val))
            (decide (n + qi.val = n + t.val))
          else decide (n + qi.val = n + j.val)) =
      (if j = qi then Pauli.Z else Pauli.I)
    have hx : ∀ jv : Fin n, decide (n + qi.val = jv.val) = false := by
      intro jv
      simp only [decide_eq_false_iff_not]
      omega
    have hxpart :
        (if j = t then xor (decide (n + qi.val = j.val))
            (decide (n + qi.val = c.val))
          else decide (n + qi.val = j.val)) = false := by
      by_cases hj : j = t
      · rw [if_pos hj, hx j, hx c]
        rfl
      · rw [if_neg hj]
        exact hx j
    rw [hxpart]
    have ht : decide (n + qi.val = n + t.val) = false := by
      simp only [decide_eq_false_iff_not]
      intro hh
      exact h (Fin.ext (by omega))
    by_cases hjc : j = c
    · rw [if_pos hjc, ht, Bool.xor_false]
      exact pauliZ_of_decide qi j
    · rw [if_neg hjc]
      exact pauliZ_of_decide qi j

end GateRows

/-- The generic composition computation: if pushing `first`'s rows through
`second` produces exactly the (re-keyed) rows of a tableau `F`, then the
composition succeeds and equals `F` under `operator==`. -/
theorem compose_rows_beq (first second F : UnitaryTableau n)
    (hx : ∀ qi : Fin n, second.get_row_product (first.get_xrow qi) =
      QubitPauliTensor.reindex F.perm (F.tab.stRow (xIdx (F.perm qi))))
    (hz : ∀ qi : Fin n, second.get_row_product (first.get_zrow qi) =
      QubitPauliTensor.reindex F.perm (F.tab.stRow (zIdx (F.perm qi)))) :
    UnitaryTableau.okBeq (UnitaryTableau.compose first second) F = true := by
  unfold UnitaryTableau.compose
  have hcond : (List.finRange n).all
      (fun qi =>
        UnitaryTableau.isRealUnit
            (second.get_row_product (first.get_xrow qi)).coeff &&
          UnitaryTableau.isRealUnit
            (second.get_row_product (first.get_zrow qi)).coeff) = true := by
    rw [List.all_eq_true]
    intro qi _
    rw [Bool.and_eq_true, hx qi, hz qi]
    constructor
    · exact isRealUnit_sgn _
    · exact isRealUnit_sgn _
  simp only [hcond, if_true]
  unfold UnitaryTableau.okBeq UnitaryTableau.beqUT
  rw [List.all_eq_true]
  intro qi _
  simp only [Equiv.Perm.one_apply, Bool.and_eq_true, List.all_eq_true,
    beq_iff_eq]
  have hxbit : ∀ (qi qj : Fin n),
      (UnitaryTableau.composeTab
        (fun qi => second.get_row_product (first.get_xrow qi))
        (fun qi => second.get_row_product (first.get_zrow qi))).xmat
          (xIdx qi) qj =
        F.tab.xmat (xIdx (F.perm qi)) (F.perm qj) := by
    intro qi qj
    unfold UnitaryTableau.composeTab
    show dite ((xIdx qi).val < n) _ _ = _
    rw [dif_pos (by exact qi.isLt)]
    have : (⟨(xIdx qi).val, qi.isLt⟩ : Fin n) = qi := rfl
    rw [this]
    show ((second.get_row_product (first.get_xrow qi)).string qj).xbit = _
    rw [hx qi]
    show ((F.tab.stRow (xIdx (F.perm qi))).string (F.perm qj)).xbit = _
    unfold SymplecticTableau.stRow SymplecticTableau.rowPauli
    rw [xbit_pauliOfBits]
  have hzbitx : ∀ (qi qj : Fin n),
      (UnitaryTableau.composeTab
        (fun qi => second.get_row_product (first.get_xrow qi))
        (fun qi => second.get_row_product (first.get_zrow qi))).zmat
          (xIdx qi) qj =
        F.tab.zmat (xIdx (F.perm qi)) (F.perm qj) := by
    intro qi qj
    unfold UnitaryTableau.composeTab
    show dite ((xIdx qi).val < n) _ _ = _
    rw [dif_pos (by exact qi.isLt)]
    have : (⟨(xIdx qi).val, qi.isLt⟩ : Fin n) = qi := rfl
    rw [this]
    show ((second.get_row_product (first.get_xrow qi)).string qj).zbit = _
    rw [hx qi]
    show ((F.tab.stRow (xIdx (F.perm qi))).string (F.perm qj)).zbit = _
    unfold SymplecticTableau.stRow SymplecticTableau.rowPauli
    rw [zbit_pauliOfBits]
  have hxbitz : ∀ (qi qj : Fin n),
      (UnitaryTableau.composeTab
        (fun qi => second.get_row_product (first.get_xrow qi))
        (fun qi => second.get_row_product (first.get_zrow qi))).xmat
          (zIdx qi) qj =
        F.tab.xmat (zIdx (F.perm qi)) (F.perm qj) := by
    intro qi qj
    unfold UnitaryTableau.composeTab
    show dite ((zIdx qi).val < n) _ _ = _
    rw [dif_neg (by show ¬ n + qi.val < n; omega)]
    have : (⟨(zIdx qi).val - n, by omega⟩ : Fin n) = qi := by
      refine Fin.ext ?_
      show n + qi.val - n = qi.val
      omega
    rw [this]
    show ((second.get_row_product (first.get_zrow qi)).string qj).xbit = _
    rw [hz qi]
    show ((F.tab.stRow (zIdx (F.perm qi))).string (F.perm qj)).xbit = _
    unfold SymplecticTableau.stRow SymplecticTableau.rowPauli
    rw [xbit_pauliOfBits]
  have hzbitz : ∀ (qi qj : Fin n),
      (UnitaryTableau.composeTab
        (fun qi => second.get_row_product (first.get_xrow qi))
        (fun qi => second.get_row_product (first.get_zrow qi))).zmat
          (zIdx qi) qj =
        F.tab.zmat (zIdx (F.perm qi)) (F.perm qj) := by
    intro qi qj
    unfold UnitaryTableau.composeTab
    show dite ((zIdx qi).val < n) _ _ = _
    rw [dif_neg (by show ¬ n + qi.val < n; omega)]
    have : (⟨(zIdx qi).val - n, by omega⟩ : Fin n) = qi := by
      refine Fin.ext ?_
      show n + qi.val - n = qi.val
      omega
    rw [this]
    show ((second.get_row_product (first.get_zrow qi)).string qj).zbit = _
    rw [hz qi]
    show ((F.tab.stRow (zIdx (F.perm qi))).string (F.perm qj)).zbit = _
    unfold SymplecticTableau.stRow SymplecticTableau.rowPauli
    rw [zbit_pauliOfBits]
  refine ⟨⟨fun qj _ => ⟨⟨⟨hxbit qi qj, hzbitx qi qj⟩, hxbitz qi qj⟩,
    hzbitz qi qj⟩, ?_⟩, ?_⟩
  · unfold UnitaryTableau.composeTab
    show dite ((xIdx qi).val < n) _ _ = _
    rw [dif_pos (by exact qi.isLt)]
    have : (⟨(xIdx qi).val, qi.isLt⟩ : Fin n) = qi := rfl
    rw [this]
    show decide ((second.get_row_product (first.get_xrow qi)).coeff = -1) = _
    rw [hx qi]
    show decide ((F.tab.stRow (xIdx (F.perm qi))).coeff = -1) = _
    unfold SymplecticTableau.stRow
    rw [decide_sgn]
  · unfold UnitaryTableau.composeTab
    show dite ((zIdx qi).val < n) _ _ = _
    rw [dif_neg (by show ¬ n + qi.val < n; omega)]
    have : (⟨(zIdx qi).val - n, by omega⟩ : Fin n) = qi := by
      refine Fin.ext ?_
      show n + qi.val - n = qi.val
      omega
    rw [this]
    show decide ((second.get_row_product (first.get_zrow qi)).coeff = -1) = _
    rw [hz qi]
    show decide ((F.tab.stRow (zIdx (F.perm qi))).coeff = -1) = _
    unfold SymplecticTableau.stRow
    rw [decide_sgn]

end RowProductEval

section FrontCompose

open QubitPauliTensor

variable {n : ℕ}

/-- Composing the S gate (as a tableau) before a symplectic tableau agrees
with `apply_S_at_front`. -/
theorem S_front_compose (T : UnitaryTableau n)
    (hsymp : T.tab.isSymplectic) (q : Fin n) :
    UnitaryTableau.okBeq
      (UnitaryTableau.compose ((UnitaryTableau.identity n).apply_S_at_end q) T)
      (T.apply_S_at_front q) = true := by
  refine compose_rows_beq ((UnitaryTableau.identity n).apply_S_at_end q) T
    (T.apply_S_at_front q) ?_ ?_
  · intro qi
    by_cases hqi : qi = q
    · subst hqi
      rw [S_end_xrow_eq]
      show T.get_row_product
          ⟨1, fun j => if j = qi then Pauli.Y else Pauli.I⟩ =
        QubitPauliTensor.reindex T.perm
          ((T.tab.row_mult (zIdx (T.perm qi)) (xIdx (T.perm qi)) iG).stRow
            (xIdx (T.perm qi)))
      rw [grp_ite_Y T qi 1]
      rw [get_xrow_eq_reindex, get_zrow_eq_reindex, reindex_mul,
        ← reindex_qscale]
      congr 1
      have hform : T.tab.sympForm (xIdx (T.perm qi)) (zIdx (T.perm qi)) =
          1 := by
        have h1 := (hsymp (T.perm qi) (T.perm qi)).1
        rwa [if_pos rfl] at h1
      rw [stRow_row_mult_eq T.tab (zIdx (T.perm qi)) (xIdx (T.perm qi)) iG
        (rowMultTotal_real_of_form_one T.tab (zIdx (T.perm qi))
          (xIdx (T.perm qi)) hform)]
      have hco : (1 : GaussianInt) * iG = iG := one_mul iG
      rw [hco]
    · rw [S_end_xrow_ne q qi hqi]
      show T.get_row_product
          ⟨1, fun j => if j = qi then Pauli.X else Pauli.I⟩ =
        QubitPauliTensor.reindex T.perm
          ((T.tab.row_mult (zIdx (T.perm q)) (xIdx (T.perm q)) iG).stRow
            (xIdx (T.perm qi)))
      rw [grp_ite_X T qi 1, qscale_one, get_xrow_eq_reindex]
      congr 1
      exact (stRow_row_mult_ne T.tab (zIdx (T.perm q)) (xIdx (T.perm q))
        (xIdx (T.perm qi)) iG
        (xIdx_ne_of_ne (fun h => hqi (T.perm.injective h)))).symm
  · intro qi
    rw [S_end_zrow q qi]
    show T.get_row_product
        ⟨1, fun j => if j = qi then Pauli.Z else Pauli.I⟩ =
      QubitPauliTensor.reindex T.perm
        ((T.tab.row_mult (zIdx (T.perm q)) (xIdx (T.perm q)) iG).stRow
          (zIdx (T.perm qi)))
    rw [grp_ite_Z T qi 1, qscale_one, get_zrow_eq_reindex]
    congr 1
    exact (stRow_row_mult_ne T.tab (zIdx (T.perm q)) (xIdx (T.perm q))
      (zIdx (T.perm qi)) iG (zIdx_ne_xIdx (T.perm qi) (T.perm q))).symm

/-- Composing the V gate (as a tableau) before a symplectic tableau agrees
with `apply_V_at_front`. -/
theorem V_front_compose (T : UnitaryTableau n)
    (hsymp : T.tab.isSymplectic) (q : Fin n) :
    UnitaryTableau.okBeq
      (UnitaryTableau.compose ((UnitaryTableau.identity n).apply_V_at_end q) T)
      (T.apply_V_at_front q) = true := by
  refine compose_rows_beq ((UnitaryTableau.identity n).apply_V_at_end q) T
    (T.apply_V_at_front q) ?_ ?_
  · intro qi
    rw [V_end_xrow q qi]
    show T.get_row_product
        ⟨1, fun j => if j = qi then Pauli.X else Pauli.I⟩ =
      QubitPauliTensor.reindex T.perm
        ((T.tab.row_mult (xIdx (T.perm q)) (zIdx (T.perm q)) iG).stRow
          (xIdx (T.perm qi)))
    rw [grp_ite_X T qi 1, qscale_one, get_xrow_eq_reindex]
    congr 1
    exact (stRow_row_mult_ne T.tab (xIdx (T.perm q)) (zIdx (T.perm q))
      (xIdx (T.perm qi)) iG (xIdx_ne_zIdx (T.perm qi) (T.perm q))).symm
  · intro qi
    by_cases hqi : qi = q
    · subst hqi
      rw [V_end_zrow_eq]
      show T.get_row_product
          ⟨(-1 : GaussianInt) * 1,
            fun j => if j = qi then Pauli.Y else Pauli.I⟩ =
        QubitPauliTensor.reindex T.perm
          ((T.tab.row_mult (xIdx (T.perm qi)) (zIdx (T.perm qi)) iG).stRow
            (zIdx (T.perm qi)))
      rw [grp_ite_Y T qi (-1 * 1)]
      rw [get_xrow_eq_reindex, get_zrow_eq_reindex, reindex_mul,
        ← reindex_qscale]
      congr 1
      have hform : T.tab.sympForm (xIdx (T.perm qi)) (zIdx (T.perm qi)) =
          1 := by
        have h1 := (hsymp (T.perm qi) (T.perm qi)).1
        rwa [if_pos rfl] at h1
      rw [stRow_mul_swap T.tab (xIdx (T.perm qi)) (zIdx (T.perm qi)) hform]
      rw [qscale_qscale]
      rw [stRow_row_mult_eq T.tab (xIdx (T.perm qi)) (zIdx (T.perm qi)) iG
        (rowMultTotal_real_of_form_one T.tab (xIdx (T.perm qi))
          (zIdx (T.perm qi)) (by rw [sympForm_comm]; exact hform))]
      have hco : (-1 : GaussianInt) * 1 * iG * -1 = iG := by ring
      rw [hco]
    · rw [V_end_zrow_ne q qi hqi]
      show T.get_row_product
          ⟨1, fun j => if j = qi then Pauli.Z else Pauli.I⟩ =
        QubitPauliTensor.reindex T.perm
          ((T.tab.row_mult (xIdx (T.perm q)) (zIdx (T.perm q)) iG).stRow
            (zIdx (T.perm qi)))
      rw [grp_ite_Z T qi 1, qscale_one, get_zrow_eq_reindex]
      congr 1
      exact (stRow_row_mult_ne T.tab (xIdx (T.perm q)) (zIdx (T.perm q))
        (zIdx (T.perm qi)) iG
        (zIdx_ne_of_ne (fun h => hqi (T.perm.injective h)))).symm

/-- Composing the CX gate (as a tableau) before a symplectic tableau agrees
with `apply_CX_at_front`. -/
theorem CX_front_compose (T : UnitaryTableau n)
    (hsymp : T.tab.isSymplectic) (c t : Fin n) (hct : c ≠ t) :
    UnitaryTableau.okBeq
      (UnitaryTableau.compose
        ((UnitaryTableau.identity n).apply_CX_at_end c t) T)
      (T.apply_CX_at_front c t) = true := by
  have hxx : T.tab.sympForm (xIdx (T.perm c)) (xIdx (T.perm t)) = 0 :=
    (hsymp (T.perm c) (T.perm t)).2.1
  have hzz : T.tab.sympForm (zIdx (T.perm c)) (zIdx (T.perm t)) = 0 :=
    (hsymp (T.perm c) (T.perm t)).2.2
  refine compose_rows_beq ((UnitaryTableau.identity n).apply_CX_at_end c t) T
    (T.apply_CX_at_front c t) ?_ ?_
  · intro qi
    by_cases hqc : qi = c
    · subst hqc
      rw [CX_end_xrow_c qi t hct]
      show T.get_row_product
          ⟨1, fun j => if j = qi then Pauli.X
            else if j = t then Pauli.X else Pauli.I⟩ =
        QubitPauliTensor.reindex T.perm
          (((T.tab.row_mult (xIdx (T.perm t)) (xIdx (T.perm qi)) 1).row_mult
            (zIdx (T.perm qi)) (zIdx (T.perm t)) 1).stRow
            (xIdx (T.perm qi)))
      have hcommx : (T.get_xrow qi).mul (T.get_xrow t) =
          (T.get_xrow t).mul (T.get_xrow qi) := by
        rw [get_xrow_eq_reindex T qi, get_xrow_eq_reindex T t, reindex_mul,
          reindex_mul]
        exact congrArg (QubitPauliTensor.reindex T.perm)
          (stRow_mul_comm T.tab (xIdx (T.perm qi)) (xIdx (T.perm t)) hxx)
      rw [grp_ite_XX T qi t hct 1 hcommx, qscale_one, get_xrow_eq_reindex,
        get_xrow_eq_reindex, reindex_mul]
      congr 1
      rw [stRow_row_mult_ne (T.tab.row_mult (xIdx (T.perm t))
          (xIdx (T.perm qi)) 1) (zIdx (T.perm qi)) (zIdx (T.perm t))
          (xIdx (T.perm qi)) 1 (xIdx_ne_zIdx (T.perm qi) (T.perm t))]
      rw [stRow_row_mult_eq T.tab (xIdx (T.perm t)) (xIdx (T.perm qi)) 1
        (rowMultTotal_real_of_form_zero T.tab (xIdx (T.perm t))
          (xIdx (T.perm qi)) hxx)]
      rw [qscale_one]
    · rw [CX_end_xrow_ne c t qi hqc]
      show T.get_row_product
          ⟨1, fun j => if j = qi then Pauli.X else Pauli.I⟩ =
        QubitPauliTensor.reindex T.perm
          (((T.tab.row_mult (xIdx (T.perm t)) (xIdx (T.perm c)) 1).row_mult
            (zIdx (T.perm c)) (zIdx (T.perm t)) 1).stRow
            (xIdx (T.perm qi)))
      rw [grp_ite_X T qi 1, qscale_one, get_xrow_eq_reindex]
      congr 1
      rw [stRow_row_mult_ne (T.tab.row_mult (xIdx (T.perm t))
          (xIdx (T.perm c)) 1) (zIdx (T.perm c)) (zIdx (T.perm t))
          (xIdx (T.perm qi)) 1 (xIdx_ne_zIdx (T.perm qi) (T.perm t))]
      rw [stRow_row_mult_ne T.tab (xIdx (T.perm t)) (xIdx (T.perm c))
          (xIdx (T.perm qi)) 1
          (xIdx_ne_of_ne (fun h => hqc (T.perm.injective h)))]
  · intro qi
    by_cases hqt : qi = t
    · subst hqt
      rw [CX_end_zrow_t c qi hct]
      show T.get_row_product
          ⟨1, fun j => if j = c then Pauli.Z
            else if j = qi then Pauli.Z else Pauli.I⟩ =
        QubitPauliTensor.reindex T.perm
          (((T.tab.row_mult (xIdx (T.perm qi)) (xIdx (T.perm c)) 1).row_mult
            (zIdx (T.perm c)) (zIdx (T.perm qi)) 1).stRow
            (zIdx (T.perm qi)))
      have hcommz : (T.get_zrow c).mul (T.get_zrow qi) =
          (T.get_zrow qi).mul (T.get_zrow c) := by
        rw [get_zrow_eq_reindex T c, get_zrow_eq_reindex T qi, reindex_mul,
          reindex_mul]
        exact congrArg (QubitPauliTensor.reindex T.perm)
          (stRow_mul_comm T.tab (zIdx (T.perm c)) (zIdx (T.perm qi)) hzz)
      rw [grp_ite_ZZ T c qi hct 1 hcommz, qscale_one, get_zrow_eq_reindex,
        get_zrow_eq_reindex, reindex_mul]
      congr 1
      have hSform : (T.tab.row_mult (xIdx (T.perm qi)) (xIdx (T.perm c))
          1).sympForm (zIdx (T.perm qi)) (zIdx (T.perm c)) =
          T.tab.sympForm (zIdx (T.perm qi)) (zIdx (T.perm c)) := by
        refine Finset.sum_congr rfl (fun k _ => ?_)
        rw [row_mult_xmat_ne T.tab (xIdx (T.perm qi)) (xIdx (T.perm c))
            (zIdx (T.perm qi)) 1 k (zIdx_ne_xIdx _ _),
          row_mult_zmat_ne T.tab (xIdx (T.perm qi)) (xIdx (T.perm c))
            (zIdx (T.perm c)) 1 k (zIdx_ne_xIdx _ _),
          row_mult_xmat_ne T.tab (xIdx (T.perm qi)) (xIdx (T.perm c))
            (zIdx (T.perm c)) 1 k (zIdx_ne_xIdx _ _),
          row_mult_zmat_ne T.tab (xIdx (T.perm qi)) (xIdx (T.perm c))
            (zIdx (T.perm qi)) 1 k (zIdx_ne_xIdx _ _)]
      have hreal1 := rowMultTotal_real_of_form_zero
        (T.tab.row_mult (xIdx (T.perm qi)) (xIdx (T.perm c)) 1)
        (zIdx (T.perm c)) (zIdx (T.perm qi))
        (by rw [hSform, sympForm_comm]; exact hzz)
      rw [stRow_row_mult_eq (T.tab.row_mult (xIdx (T.perm qi))
          (xIdx (T.perm c)) 1) (zIdx (T.perm c)) (zIdx (T.perm qi)) 1
          hreal1]
      rw [qscale_one]
      rw [stRow_row_mult_ne T.tab (xIdx (T.perm qi)) (xIdx (T.perm c))
          (zIdx (T.perm qi)) 1 (zIdx_ne_xIdx _ _),
        stRow_row_mult_ne T.tab (xIdx (T.perm qi)) (xIdx (T.perm c))
          (zIdx (T.perm c)) 1 (zIdx_ne_xIdx _ _)]
      exact stRow_mul_comm T.tab (zIdx (T.perm c)) (zIdx (T.perm qi)) hzz
    · rw [CX_end_zrow_ne c t qi hqt]
      show T.get_row_product
          ⟨1, fun j => if j = qi then Pauli.Z else Pauli.I⟩ =
        QubitPauliTensor.reindex T.perm
          (((T.tab.row_mult (xIdx (T.perm t)) (xIdx (T.perm c)) 1).row_mult
            (zIdx (T.perm c)) (zIdx (T.perm t)) 1).stRow
            (zIdx (T.perm qi)))
      rw [grp_ite_Z T qi 1, qscale_one, get_zrow_eq_reindex]
      congr 1
      rw [stRow_row_mult_ne (T.tab.row_mult (xIdx (T.perm t))
          (xIdx (T.perm c)) 1) (zIdx (T.perm c)) (zIdx (T.perm t))
          (zIdx (T.perm qi)) 1
          (zIdx_ne_of_ne (fun h => hqt (T.perm.injective h))),
        stRow_row_mult_ne T.tab (xIdx (T.perm t)) (xIdx (T.perm c))
          (zIdx (T.perm qi)) 1 (zIdx_ne_xIdx _ _)]

end FrontCompose

/-- No command of the CCX replacement template is itself a CCX. -/
theorem CCX_template_no_CCX (a b c : ℕ) :
    ∀ x ∈ Transform.CCX_template a b c, x.type ≠ OpType.CCX := by
  intro x hx
  simp only [Transform.CCX_template, List.mem_cons, List.not_mem_nil,
    or_false] at hx
  rcases hx with h | h | h | h | h | h | h | h | h | h | h | h | h | h | h <;>
    subst h <;> simp

/-- A non-CCX command is kept unchanged by the CCX rewrite. -/
theorem decompCCXCmd_of_ne (cmd : Cmd) (h : cmd.type ≠ OpType.CCX) :
    Transform.decompCCXCmd cmd = [cmd] := by
  simp [Transform.decompCCXCmd, h]

/-- Every command produced by rewriting a well-formed command (a CCX vertex
has its three wires) is not a CCX. -/
theorem decompCCXCmd_no_CCX (cmd : Cmd)
    (h : cmd.type = OpType.CCX → cmd.args.length = 3) :
    ∀ x ∈ Transform.decompCCXCmd cmd, x.type ≠ OpType.CCX := by
  intro x hx
  by_cases hc : cmd.type = OpType.CCX
  · have h3 := h hc
    unfold Transform.decompCCXCmd at hx
    rw [if_pos hc] at hx
    match harg : cmd.args with
    | [a, b, c] =>
        rw [harg] at hx
        exact CCX_template_no_CCX a b c x hx
    | [] => rw [harg] at h3; simp at h3
    | [a] => rw [harg] at h3; simp at h3
    | [a, b] => rw [harg] at h3; simp at h3
    | a :: b :: c :: d :: l => rw [harg] at h3; simp at h3
  · rw [decompCCXCmd_of_ne cmd hc] at hx
    simp at hx
    subst hx
    exact hc

/-- Rewriting a command list without CCX vertices is the identity. -/
theorem flatMap_decompCCXCmd_of_no_CCX (l : List Cmd)
    (h : ∀ x ∈ l, x.type ≠ OpType.CCX) :
    l.flatMap Transform.decompCCXCmd = l := by
  induction l with
  | nil => rfl
  | cons cmd rest ih =>
      have h1 : cmd.type ≠ OpType.CCX := h cmd (List.mem_cons_self cmd rest)
      have h2 : ∀ x ∈ rest, x.type ≠ OpType.CCX := fun x hx =>
        h x (List.mem_cons_of_mem cmd hx)
      simp [List.flatMap_cons, decompCCXCmd_of_ne cmd h1, ih h2]

/-- A command list without CCX vertices makes the CCX pass report no work. -/
theorem any_CCX_eq_false (l : List Cmd) (h : ∀ x ∈ l, x.type ≠ OpType.CCX) :
    (l.any (fun cmd => cmd.type = OpType.CCX)) = false := by
  simp only [List.any_eq_false, decide_eq_true_eq]
  exact h

/-- The CCX pass is the identity (with result false) on a CCX-free
circuit. -/
theorem decomp_CCX_of_no_CCX (d : Circuit)
    (h : ∀ x ∈ d.cmds, x.type ≠ OpType.CCX) :
    Transform.decomp_CCX d = (false, d) := by
  unfold Transform.decomp_CCX
  rw [any_CCX_eq_false _ h, flatMap_decompCCXCmd_of_no_CCX _ h]

/-- The CnRy pass keeps a CnRy-free command list unchanged and reports no
work. -/
theorem decompRysGo_of_no_CnRy (l : List Cmd)
    (h : ∀ x ∈ l, x.type ≠ OpType.CnRy) :
    Transform.decompRysGo l = .ok (false, l) := by
  induction l with
  | nil => rfl
  | cons cmd rest ih =>
      have h1 : cmd.type ≠ OpType.CnRy := h cmd (List.mem_cons_self cmd rest)
      have h2 : ∀ x ∈ rest, x.type ≠ OpType.CnRy := fun x hx =>
        h x (List.mem_cons_of_mem cmd hx)
      unfold Transform.decompRysGo
      rw [if_neg h1, ih h2]

/-- Running an appended command list runs the two parts in order. -/
theorem runCmds3_append {R : Type} [CommRing R] (co si : ℚ → R)
    (l1 l2 : List Cmd) (v : Fin 8 → R) :
    runCmds3 co si (l1 ++ l2) v =
      runCmds3 co si l2 (runCmds3 co si l1 v) := by
  simp [runCmds3]

/-- `Fin 8` literals: mk form to numeral form. -/
theorem fin8_mk0 (h : 0 < 8) : (⟨0, h⟩ : Fin 8) = 0 := rfl

/-- `Fin 8` literals: mk form to numeral form. -/
theorem fin8_mk1 (h : 1 < 8) : (⟨1, h⟩ : Fin 8) = 1 := rfl

/-- `Fin 8` literals: mk form to numeral form. -/
theorem fin8_mk2 (h : 2 < 8) : (⟨2, h⟩ : Fin 8) = 2 := rfl

/-- `Fin 8` literals: mk form to numeral form. -/
theorem fin8_mk3 (h : 3 < 8) : (⟨3, h⟩ : Fin 8) = 3 := rfl

/-- `Fin 8` literals: mk form to numeral form. -/
theorem fin8_mk4 (h : 4 < 8) : (⟨4, h⟩ : Fin 8) = 4 := rfl

/-- `Fin 8` literals: mk form to numeral form. -/
theorem fin8_mk5 (h : 5 < 8) : (⟨5, h⟩ : Fin 8) = 5 := rfl

/-- `Fin 8` literals: mk form to numeral form. -/
theorem fin8_mk6 (h : 6 < 8) : (⟨6, h⟩ : Fin 8) = 6 := rfl

/-- `Fin 8` literals: mk form to numeral form. -/
theorem fin8_mk7 (h : 7 < 8) : (⟨7, h⟩ : Fin 8) = 7 := rfl

/-- The two-CX controlled-Ry template on control 1, target 2 acts as the
controlled rotation by the doubled angle. -/
theorem CRy12_action {R : Type} [CommRing R] (co si : ℚ → R) (α : ℚ)
    (a b : R) (hab : a ^ 2 + b ^ 2 = 1)
    (hco : co (α / 2) = a) (hco' : co (-(α / 2)) = a)
    (hsi : si (α / 2) = b) (hsi' : si (-(α / 2)) = -b)
    (v : Fin 8 → R) :
    runCmds3 co si (Transform.CRy_template α 1 2) v = fun i =>
      if bitOf3 1 i then
        if bitOf3 2 i then
          (2 * a * b) * v (flipBit3 2 i) + (a ^ 2 - b ^ 2) * v i
        else (a ^ 2 - b ^ 2) * v i - (2 * a * b) * v (flipBit3 2 i)
      else v i := by
  funext i
  fin_cases i <;>
    simp only [runCmds3, Transform.CRy_template, List.foldl, applyCmd3,
      bitOf3, flipBit3, hco, hco', hsi, hsi'] <;>
    norm_num <;>
    first
    | linear_combination (v 0) * hab
    | linear_combination (v ⟨0, by norm_num⟩) * hab
    | linear_combination (v 1) * hab
    | linear_combination (v ⟨1, by norm_num⟩) * hab
    | linear_combination (v 2) * hab
    | linear_combination (v ⟨2, by norm_num⟩) * hab
    | linear_combination (v 3) * hab
    | linear_combination (v ⟨3, by norm_num⟩) * hab
    | linear_combination (v 4) * hab
    | linear_combination (v ⟨4, by norm_num⟩) * hab
    | linear_combination (v 5) * hab
    | linear_combination (v ⟨5, by norm_num⟩) * hab
    | linear_combination (v 6) * hab
    | linear_combination (v ⟨6, by norm_num⟩) * hab
    | linear_combination (v 7) * hab
    | linear_combination (v ⟨7, by norm_num⟩) * hab
    | linear_combination (0 : R) * hab

/-- The two-CX controlled-Ry template on control 0, target 2 acts as the
controlled rotation by the doubled angle. -/
theorem CRy02_action {R : Type} [CommRing R] (co si : ℚ → R) (α : ℚ)
    (a b : R) (hab : a ^ 2 + b ^ 2 = 1)
    (hco : co (α / 2) = a) (hco' : co (-(α / 2)) = a)
    (hsi : si (α / 2) = b) (hsi' : si (-(α / 2)) = -b)
    (v : Fin 8 → R) :
    runCmds3 co si (Transform.CRy_template α 0 2) v = fun i =>
      if bitOf3 0 i then
        if bitOf3 2 i then
          (2 * a * b) * v (flipBit3 2 i) + (a ^ 2 - b ^ 2) * v i
        else (a ^ 2 - b ^ 2) * v i - (2 * a * b) * v (flipBit3 2 i)
      else v i := by
  funext i
  fin_cases i <;>
    simp only [runCmds3, Transform.CRy_template, List.foldl, applyCmd3,
      bitOf3, flipBit3, hco, hco', hsi, hsi'] <;>
    norm_num <;>
    first
    | linear_combination (v 0) * hab
    | linear_combination (v ⟨0, by norm_num⟩) * hab
    | linear_combination (v 1) * hab
    | linear_combination (v ⟨1, by norm_num⟩) * hab
    | linear_combination (v 2) * hab
    | linear_combination (v ⟨2, by norm_num⟩) * hab
    | linear_combination (v 3) * hab
    | linear_combination (v ⟨3, by norm_num⟩) * hab
    | linear_combination (v 4) * hab
    | linear_combination (v ⟨4, by norm_num⟩) * hab
    | linear_combination (v 5) * hab
    | linear_combination (v ⟨5, by norm_num⟩) * hab
    | linear_combination (v 6) * hab
    | linear_combination (v ⟨6, by norm_num⟩) * hab
    | linear_combination (v 7) * hab
    | linear_combination (v ⟨7, by norm_num⟩) * hab
    | linear_combination (0 : R) * hab

/-- A lone CX from qubit 0 to qubit 1 permutes the basis indices. -/
theorem CX01_action {R : Type} [CommRing R] (co si : ℚ → R)
    (v : Fin 8 → R) :
    runCmds3 co si ([⟨.CX, [], [0, 1]⟩] : List Cmd) v = fun i =>
      if bitOf3 0 i then v (flipBit3 1 i) else v i := rfl

set_option maxHeartbeats 2000000 in
/-- The full action of the two-control CnRy replacement circuit: identity
off the all-controls-set block, the rotation by the quadrupled half-angle
on it. -/
theorem CnRy2_master {R : Type} [CommRing R] (p : ℚ) (c s : R)
    (co si : ℚ → R) (hcs : c ^ 2 + s ^ 2 = 1)
    (hc1 : co (p / 4) = c) (hc2 : co (-(p / 4)) = c)
    (hs1 : si (p / 4) = s) (hs2 : si (-(p / 4)) = -s)
    (v : Fin 8 → R) :
    runCmds3 co si (Transform.decomposed_CnRy p [0, 1, 2]) v = fun i =>
      if i.val = 6 then
        ((c ^ 2 - s ^ 2) ^ 2 - (2 * c * s) ^ 2) * v 6 -
          2 * (c ^ 2 - s ^ 2) * (2 * c * s) * v 7
      else if i.val = 7 then
        2 * (c ^ 2 - s ^ 2) * (2 * c * s) * v 6 +
          ((c ^ 2 - s ^ 2) ^ 2 - (2 * c * s) ^ 2) * v 7
      else v i := by
  have e1 : p / 2 / 2 = p / 4 := by ring
  have e2 : -(p / 2) / 2 = -(p / 4) := by ring
  have e3 : -(p / 2 / 2) = -(p / 4) := by ring
  have e4 : -(-(p / 2) / 2) = p / 4 := by ring
  have hlist : Transform.decomposed_CnRy p [0, 1, 2] =
      Transform.CRy_template (p / 2) 1 2 ++
        (([⟨.CX, [], [0, 1]⟩] : List Cmd) ++
          (Transform.CRy_template (-(p / 2)) 1 2 ++
            (([⟨.CX, [], [0, 1]⟩] : List Cmd) ++
              Transform.CRy_template (p / 2) 0 2))) := rfl
  rw [hlist, runCmds3_append, runCmds3_append, runCmds3_append,
    runCmds3_append]
  rw [CRy12_action co si (p / 2) c s hcs
    (by rw [e1]; exact hc1) (by rw [e3]; exact hc2)
    (by rw [e1]; exact hs1) (by rw [e3]; exact hs2) v]
  rw [CRy12_action co si (-(p / 2)) c (-s) (by linear_combination hcs)
    (by rw [e2]; exact hc2) (by rw [e4]; exact hc1)
    (by rw [e2]; exact hs2) (by rw [e4, neg_neg]; exact hs1)]
  rw [CRy02_action co si (p / 2) c s hcs
    (by rw [e1]; exact hc1) (by rw [e3]; exact hc2)
    (by rw [e1]; exact hs1) (by rw [e3]; exact hs2)]
  rw [CX01_action, CX01_action]
  funext i
  fin_cases i <;>
    simp only [bitOf3, flipBit3] <;>
    norm_num [fin8_mk0, fin8_mk1, fin8_mk2, fin8_mk3,
      fin8_mk4, fin8_mk5, fin8_mk6, fin8_mk7] <;>
    first
    | linear_combination
        (((c ^ 2 + s ^ 2) ^ 2 + (c ^ 2 + s ^ 2) + 1) * v 0) * hcs
    | linear_combination
        (((c ^ 2 + s ^ 2) ^ 2 + (c ^ 2 + s ^ 2) + 1) * v 1) * hcs
    | linear_combination (((c ^ 2 + s ^ 2) + 1) * v 2) * hcs
    | linear_combination (((c ^ 2 + s ^ 2) + 1) * v 3) * hcs
    | linear_combination (((c ^ 2 + s ^ 2) + 1) * v 4) * hcs
    | linear_combination (((c ^ 2 + s ^ 2) + 1) * v 5) * hcs
    | linear_combination
        (((c ^ 2 + s ^ 2) ^ 2 + (c ^ 2 + s ^ 2) + 1) * v 2) * hcs
    | linear_combination
        (((c ^ 2 + s ^ 2) ^ 2 + (c ^ 2 + s ^ 2) + 1) * v 3) * hcs
    | linear_combination
        (((c ^ 2 + s ^ 2) ^ 2 + (c ^ 2 + s ^ 2) + 1) * v 4) * hcs
    | linear_combination
        (((c ^ 2 + s ^ 2) ^ 2 + (c ^ 2 + s ^ 2) + 1) * v 5) * hcs
    | linear_combination
        ((c ^ 4 - 6 * c ^ 2 * s ^ 2 + s ^ 4) * v 6 +
          (-(4 * c ^ 3 * s) + 4 * c * s ^ 3) * v 7) * hcs
    | linear_combination
        ((4 * c ^ 3 * s - 4 * c * s ^ 3) * v 6 +
          (c ^ 4 - 6 * c ^ 2 * s ^ 2 + s ^ 4) * v 7) * hcs
    | linear_combination (0 : R) * hcs

end Lemmas

section Claims

/-- C9: `decomp_CCX` is idempotent.  For every circuit (its CCX vertices
carrying the three wires the DAG arity invariant gives them), a second
application of the pass finds no CCX vertex, returns false, and leaves the
circuit unchanged. -/
theorem C9_decomp_CCX_idempotent (c : Circuit)
    (h : ∀ cmd ∈ c.cmds, cmd.type = OpType.CCX → cmd.args.length = 3) :
    Transform.decomp_CCX (Transform.decomp_CCX c).2 =
      (false, (Transform.decomp_CCX c).2) := by
  have hno : ∀ x ∈ (Transform.decomp_CCX c).2.cmds, x.type ≠ OpType.CCX := by
    intro x hx
    simp only [Transform.decomp_CCX, List.mem_flatMap] at hx
    obtain ⟨cmd, hcmd, hxin⟩ := hx
    exact decompCCXCmd_no_CCX cmd (h cmd hcmd) x hxin
  exact decomp_CCX_of_no_CCX _ hno

/-- Witness for C9 at a concrete input: the two back-to-back CCX gates of
the repository test scenario. -/
theorem C9_witness :
    (∀ cmd ∈ (((Circuit.mk 3 []).add_op .CCX [] [0, 1, 2]).add_op .CCX []
        [0, 1, 2]).cmds, cmd.type = OpType.CCX → cmd.args.length = 3) ∧
    Transform.decomp_CCX
        (Transform.decomp_CCX (((Circuit.mk 3 []).add_op .CCX [] [0, 1, 2]).add_op
          .CCX [] [0, 1, 2])).2 =
      (false,
       (Transform.decomp_CCX (((Circuit.mk 3 []).add_op .CCX [] [0, 1, 2]).add_op
          .CCX [] [0, 1, 2])).2) :=
  ⟨by decide,
   C9_decomp_CCX_idempotent
     (((Circuit.mk 3 []).add_op .CCX [] [0, 1, 2]).add_op .CCX [] [0, 1, 2])
     (by decide)⟩

/-- C5: applying `decomp_CCX` to a 3-qubit circuit holding a single CCX
succeeds and yields `n_gates = 15`, `n_vertices = 21`, `n_qubits = 3`, the
replacement being a 15-gate expansion over {H, T, Tdg, CX}. -/
theorem C5_decomp_CCX_single :
    (Transform.decomp_CCX ((Circuit.mk 3 []).add_op .CCX [] [0, 1, 2])).1 =
        true ∧
    (Transform.decomp_CCX ((Circuit.mk 3 []).add_op .CCX [] [0, 1, 2])).2.n_gates
        = 15 ∧
    (Transform.decomp_CCX
        ((Circuit.mk 3 []).add_op .CCX [] [0, 1, 2])).2.n_vertices = 21 ∧
    (Transform.decomp_CCX
        ((Circuit.mk 3 []).add_op .CCX [] [0, 1, 2])).2.n_qubits = 3 ∧
    ((Transform.decomp_CCX ((Circuit.mk 3 []).add_op .CCX [] [0, 1, 2])).2.cmds.all
      (fun x => x.type = OpType.H ∨ x.type = OpType.T ∨ x.type = OpType.Tdg ∨
        x.type = OpType.CX)) = true := by
  decide

/-- C8: the 1-borrowed-qubit incrementer for register sizes 4, 5, 6 has
`n_vertices - n_gates` equal to 10, 12, 14 respectively (the circuit lives
on n+1 qubits and no classical bits, so the difference is twice the wire
count). -/
theorem C8_borrow1_vertex_gate_counts :
    (Transform.incrementer_borrow_1_qubit 4).n_vertices -
        (Transform.incrementer_borrow_1_qubit 4).n_gates = 10 ∧
    (Transform.incrementer_borrow_1_qubit 5).n_vertices -
        (Transform.incrementer_borrow_1_qubit 5).n_gates = 12 ∧
    (Transform.incrementer_borrow_1_qubit 6).n_vertices -
        (Transform.incrementer_borrow_1_qubit 6).n_gates = 14 := by
  decide

/-- C10: the `UnitaryTableau(n)` constructor produces the identity Clifford
tableau — xmat is the identity stacked above zero, zmat is zero stacked
above the identity, all phases are zero, qubit `i` is bound to row `i` —
and this tableau is symplectic and is a two-sided identity element for
`compose` (under the tableau's own equality `operator==`). -/
theorem C10_identity_tableau (n : ℕ) :
    (∀ q j : Fin n,
      (UnitaryTableau.identity n).tab.xmat (xIdx q) j = decide (q = j) ∧
      (UnitaryTableau.identity n).tab.xmat (zIdx q) j = false ∧
      (UnitaryTableau.identity n).tab.zmat (xIdx q) j = false ∧
      (UnitaryTableau.identity n).tab.zmat (zIdx q) j = decide (q = j)) ∧
    (∀ r : Fin (2 * n), (UnitaryTableau.identity n).tab.phase r = false) ∧
    (UnitaryTableau.identity n).perm = 1 ∧
    (UnitaryTableau.identity n).tab.isSymplectic ∧
    (∀ T : UnitaryTableau n,
      UnitaryTableau.okBeq
          (UnitaryTableau.compose (UnitaryTableau.identity n) T) T = true ∧
      UnitaryTableau.okBeq
          (UnitaryTableau.compose T (UnitaryTableau.identity n)) T = true) := by
  refine ⟨?_, fun r => rfl, rfl, identity_isSymplectic n, fun T => ⟨?_, ?_⟩⟩
  · intro q j
    refine ⟨?_, ?_, ?_, ?_⟩
    · show decide (q.val = j.val) = decide (q = j)
      exact decide_eq_decide.mpr Fin.ext_iff.symm
    · show decide (n + q.val = j.val) = false
      simp only [decide_eq_false_iff_not]
      omega
    · show decide (q.val = n + j.val) = false
      simp only [decide_eq_false_iff_not]
      omega
    · show decide (n + q.val = n + j.val) = decide (q = j)
      refine decide_eq_decide.mpr ?_
      rw [Fin.ext_iff]
      omega
  · refine compose_rows_beq (UnitaryTableau.identity n) T T ?_ ?_
    · intro qi
      rw [identity_get_xrow]
      show T.get_row_product
        ⟨1, fun j => if j = qi then Pauli.X else Pauli.I⟩ = _
      rw [grp_ite_X T qi 1, qscale_one]
      exact get_xrow_eq_reindex T qi
    · intro qi
      rw [identity_get_zrow]
      show T.get_row_product
        ⟨1, fun j => if j = qi then Pauli.Z else Pauli.I⟩ = _
      rw [grp_ite_Z T qi 1, qscale_one]
      exact get_zrow_eq_reindex T qi
  · refine compose_rows_beq T (UnitaryTableau.identity n) T ?_ ?_
    · intro qi
      rw [grp_identity]
      exact get_xrow_eq_reindex T qi
    · intro qi
      rw [grp_identity]
      exact get_zrow_eq_reindex T qi

/-- C1: the six-argument `UnitaryTableau` constructor does not assemble its
matrices the mathematically correct way — as the source is written
(`zmat << zx, zz`), the result never depends on the `xz` argument, and at
the concrete input below the upper half of `zmat` holds `zx` (false) where
the correct assembly would hold `xz` (true). -/
theorem C1_ctor_ignores_xz :
    (∀ (n : ℕ) (xx xz xz2 : Fin n → Fin n → Bool) (xph : Fin n → Bool)
      (zx zz : Fin n → Fin n → Bool) (zph : Fin n → Bool),
      UnitaryTableau.ofMatrices xx xz xph zx zz zph =
        UnitaryTableau.ofMatrices xx xz2 xph zx zz zph) ∧
    (UnitaryTableau.ofMatrices (n := 1) (fun _ _ => false) (fun _ _ => true)
        (fun _ => false) (fun _ _ => false) (fun _ _ => true)
        (fun _ => false)).tab.zmat (xIdx 0) 0 = false ∧
    (fun (_ : Fin 1) (_ : Fin 1) => true) 0 0 = true :=
  ⟨fun _ _ _ _ _ _ _ _ => rfl, by decide, rfl⟩

/-- C2: applying any gate kind that is not a Clifford gate to a unitary
tableau at the front fails with error kind `NotCliffordGate`. -/
theorem C2_non_clifford_errors :
    ∀ g : OpType, g.is_clifford_type = false →
      ∀ (n : ℕ) (qbs : List (Fin n)) (U : UnitaryTableau n),
        U.apply_gate_at_front g qbs = .error .NotCliffordGate := by
  intro g hg n qbs U
  cases g <;>
    simp_all [OpType.is_clifford_type, UnitaryTableau.apply_gate_at_front]

/-- Witness for C2: the T gate is not Clifford and errs accordingly. -/
theorem C2_witness :
    OpType.T.is_clifford_type = false ∧
    (UnitaryTableau.identity 1).apply_gate_at_front OpType.T [] =
      .error .NotCliffordGate :=
  ⟨by decide,
   C2_non_clifford_errors OpType.T (by decide) 1 [] (UnitaryTableau.identity 1)⟩

set_option maxRecDepth 100000 in
/-- C4: the canonical linearization of the 4-register borrowed-qubit
incrementer is byte-for-byte the contract string recorded in the repository
test. -/
theorem C4_incrementer4_canonical_string :
    (Transform.incrementer_borrow_n_qubits 4).to_str =
      "CX q[0], q[1];X q[2];X q[4];X q[6];CX q[0], q[3];CX q[0], " ++
      "q[5];CX q[0], q[7];CX q[0], q[1];X q[7];CX q[2], q[0];CCX " ++
      "q[0], q[1], q[2];CX q[2], q[3];CX q[4], q[2];CCX q[2], q[3], " ++
      "q[4];CX q[4], q[5];CX q[6], q[4];CCX q[4], q[5], q[6];CX " ++
      "q[6], q[7];CCX q[4], q[5], q[6];CCX q[2], q[3], q[4];X " ++
      "q[6];CCX q[0], q[1], q[2];X q[4];CX q[0], q[1];X q[2];X " ++
      "q[0];CCX q[0], q[1], q[2];CX q[2], q[3];X q[2];CCX q[2], " ++
      "q[3], q[4];CX q[4], q[5];X q[4];CCX q[4], q[5], q[6];CX q[6], " ++
      "q[7];CCX q[4], q[5], q[6];CX q[6], q[4];CCX q[2], q[3], " ++
      "q[4];CX q[6], q[5];CX q[4], q[2];CCX q[0], q[1], q[2];CX " ++
      "q[4], q[3];CX q[2], q[0];CX q[2], q[1];CX q[0], q[1];CX q[0], " ++
      "q[3];CX q[0], q[5];CX q[0], q[7];" := by
  decide

/-- C7: `decomp_controlled_Rys` fails with `InvalidVertex` on a CnRy vertex
with no incident wires; on a circuit with no CnRy vertex (in particular the
single-wire case, whose CnRy was auto-converted to Ry at insertion) it makes
no change and returns false. -/
theorem C7_controlled_Rys_errors :
    (∀ p : ℚ,
      Transform.decomp_controlled_Rys ⟨0, [⟨.CnRy, [p], []⟩]⟩ =
        .error .InvalidVertex) ∧
    (∀ c : Circuit, (∀ x ∈ c.cmds, x.type ≠ OpType.CnRy) →
      Transform.decomp_controlled_Rys c = .ok (false, c)) ∧
    (∀ p : ℚ,
      ((Circuit.mk 1 []).add_op .CnRy [p] [0]).cmds = [⟨.Ry, [p], [0]⟩] ∧
      Transform.decomp_controlled_Rys ((Circuit.mk 1 []).add_op .CnRy [p] [0]) =
        .ok (false, (Circuit.mk 1 []).add_op .CnRy [p] [0]) ∧
      ((Circuit.mk 1 []).add_op .CnRy [p] [0]).n_vertices = 3 ∧
      ((Circuit.mk 1 []).add_op .CnRy [p] [0]).n_gates = 1 ∧
      ((Circuit.mk 1 []).add_op .CnRy [p] [0]).count_gates .Ry = 1) := by
  refine ⟨fun p => rfl, ?_, fun p => ⟨rfl, ?_, rfl, rfl, rfl⟩⟩
  · intro c hc
    unfold Transform.decomp_controlled_Rys
    rw [decompRysGo_of_no_CnRy c.cmds hc]
  · unfold Transform.decomp_controlled_Rys
    rw [decompRysGo_of_no_CnRy]
    intro x hx
    simp only [Circuit.add_op, List.nil_append, List.mem_singleton] at hx
    subst hx
    simp

/-- Witness for C7 at concrete inputs: the no-edge vertex errors; the
repository's empty 1-wire circuit scenario returns false unchanged. -/
theorem C7_witness :
    Transform.decomp_controlled_Rys ⟨0, [⟨.CnRy, [(1 : ℚ) / 2], []⟩]⟩ =
        .error .InvalidVertex ∧
    Transform.decomp_controlled_Rys ((Circuit.mk 1 []).add_op .CnRy
        [(1 : ℚ) / 2] [0]) =
      .ok (false, (Circuit.mk 1 []).add_op .CnRy [(1 : ℚ) / 2] [0]) :=
  ⟨C7_controlled_Rys_errors.1 (1 / 2),
   (C7_controlled_Rys_errors.2.2 (1 / 2)).2.1⟩

/-- C6: pre-composition of Clifford generators is realized by the stated
row operations — `apply_S_at_front q` is `row_mult(q+n, q, i)` on the bound
row of `q`, `apply_V_at_front q` is `row_mult(q, q+n, i)`, and
`apply_CX_at_front(c, t)` is `row_mult(t, c, 1)` followed by
`row_mult(c+n, t+n, 1)` on the bound rows; and on every symplectic tableau
each of these front applications yields exactly (under `operator==`) the
tableau `compose` builds for the composite with the gate applied before
the existing tableau. -/
theorem C6_front_row_ops {n : ℕ} (T : UnitaryTableau n)
    (hsymp : T.tab.isSymplectic) :
    (∀ q : Fin n,
      (T.apply_S_at_front q).tab =
        T.tab.row_mult (zIdx (T.perm q)) (xIdx (T.perm q)) iG ∧
      (T.apply_V_at_front q).tab =
        T.tab.row_mult (xIdx (T.perm q)) (zIdx (T.perm q)) iG ∧
      UnitaryTableau.okBeq
        (UnitaryTableau.compose
          ((UnitaryTableau.identity n).apply_S_at_end q) T)
        (T.apply_S_at_front q) = true ∧
      UnitaryTableau.okBeq
        (UnitaryTableau.compose
          ((UnitaryTableau.identity n).apply_V_at_end q) T)
        (T.apply_V_at_front q) = true) ∧
    (∀ c t : Fin n, c ≠ t →
      (T.apply_CX_at_front c t).tab =
        (T.tab.row_mult (xIdx (T.perm t)) (xIdx (T.perm c)) 1).row_mult
          (zIdx (T.perm c)) (zIdx (T.perm t)) 1 ∧
      UnitaryTableau.okBeq
        (UnitaryTableau.compose
          ((UnitaryTableau.identity n).apply_CX_at_end c t) T)
        (T.apply_CX_at_front c t) = true) :=
  ⟨fun q => ⟨rfl, rfl, S_front_compose T hsymp q, V_front_compose T hsymp q⟩,
   fun c t hct => ⟨rfl, CX_front_compose T hsymp c t hct⟩⟩

/-- Witness for C6 on the identity tableau over two qubits: it is
symplectic, the qubits are distinct, and the S and CX front applications
match composition. -/
theorem C6_witness :
    (UnitaryTableau.identity 2).tab.isSymplectic ∧
    (0 : Fin 2) ≠ 1 ∧
    UnitaryTableau.okBeq
      (UnitaryTableau.compose
        ((UnitaryTableau.identity 2).apply_S_at_end 0)
        (UnitaryTableau.identity 2))
      ((UnitaryTableau.identity 2).apply_S_at_front 0) = true ∧
    UnitaryTableau.okBeq
      (UnitaryTableau.compose
        ((UnitaryTableau.identity 2).apply_CX_at_end 0 1)
        (UnitaryTableau.identity 2))
      ((UnitaryTableau.identity 2).apply_CX_at_front 0 1) = true :=
  ⟨by decide, by decide,
   ((C6_front_row_ops (UnitaryTableau.identity 2) (by decide)).1 0).2.2.1,
   ((C6_front_row_ops (UnitaryTableau.identity 2) (by decide)).2 0 1
     (by decide)).2⟩

/-- C3 counterexample: the replacement circuit substituted for a CnRy
vertex with two controls contains 8 CX and 6 Ry gates (the counts the
repository test fixes), not the claimed `2^n - 2` CX and `2^(n-1)` Ry —
neither with `n` read as the number of controls (2) nor as the number of
qubits (3). -/
theorem C3_count_formula_fails :
    (Transform.decomposed_CnRy 1 [0, 1, 2]).countP
        (fun cmd => cmd.type == OpType.CX) = 8 ∧
    (Transform.decomposed_CnRy 1 [0, 1, 2]).countP
        (fun cmd => cmd.type == OpType.Ry) = 6 ∧
    ¬((2 : ℕ) ^ 2 - 2 = 8) ∧ ¬((2 : ℕ) ^ (2 - 1) = 6) ∧
    ¬((2 : ℕ) ^ 3 - 2 = 8) ∧ ¬((2 : ℕ) ^ (3 - 1) = 6) :=
  ⟨rfl, rfl, by decide, by decide, by decide, by decide⟩

/-- C3 (amended): for every angle `p`, the circuit substituted for a
two-control CnRy(p) vertex has exactly 8 CX gates, 6 Ry gates and 14
gates in all, and over any commutative ring in which the rotation
parameters `±p/4` are valued by a cosine/sine pair `(c, s)` on the unit
circle, its state-vector action is the identity outside the
all-controls-set block and the rotation `Ry(p)` (cosine `(c²-s²)²-(2cs)²`,
sine `2(c²-s²)(2cs)`, the quadrupled half-angle) on the
`{|110⟩, |111⟩}` target block. -/
theorem C3_CnRy_two_controls (p : ℚ) {R : Type} [CommRing R] (c s : R)
    (co si : ℚ → R) (hcs : c ^ 2 + s ^ 2 = 1)
    (hc1 : co (p / 4) = c) (hc2 : co (-(p / 4)) = c)
    (hs1 : si (p / 4) = s) (hs2 : si (-(p / 4)) = -s) :
    ((Transform.decomposed_CnRy p [0, 1, 2]).countP
        (fun cmd => cmd.type == OpType.CX) = 8 ∧
      (Transform.decomposed_CnRy p [0, 1, 2]).countP
        (fun cmd => cmd.type == OpType.Ry) = 6 ∧
      (Transform.decomposed_CnRy p [0, 1, 2]).length = 14) ∧
    ∀ v : Fin 8 → R,
      runCmds3 co si (Transform.decomposed_CnRy p [0, 1, 2]) v = fun i =>
        if i.val = 6 then
          ((c ^ 2 - s ^ 2) ^ 2 - (2 * c * s) ^ 2) * v 6 -
            2 * (c ^ 2 - s ^ 2) * (2 * c * s) * v 7
        else if i.val = 7 then
          2 * (c ^ 2 - s ^ 2) * (2 * c * s) * v 6 +
            ((c ^ 2 - s ^ 2) ^ 2 - (2 * c * s) ^ 2) * v 7
        else v i :=
  ⟨⟨rfl, rfl, rfl⟩,
   fun v => CnRy2_master p c s co si hcs hc1 hc2 hs1 hs2 v⟩

/-- Witness for C3 at the concrete valuation `c = 1, s = 0` over `ℤ`
(cosine/sine of angle zero) and angle `p = 1`. -/
theorem C3_witness :
    ((1 : ℤ) ^ 2 + (0 : ℤ) ^ 2 = 1) ∧
    (((Transform.decomposed_CnRy 1 [0, 1, 2]).countP
        (fun cmd => cmd.type == OpType.CX) = 8 ∧
      (Transform.decomposed_CnRy 1 [0, 1, 2]).countP
        (fun cmd => cmd.type == OpType.Ry) = 6 ∧
      (Transform.decomposed_CnRy 1 [0, 1, 2]).length = 14) ∧
    ∀ v : Fin 8 → ℤ,
      runCmds3 (fun _ => (1 : ℤ)) (fun _ => (0 : ℤ))
          (Transform.decomposed_CnRy 1 [0, 1, 2]) v = fun i =>
        if i.val = 6 then
          (((1 : ℤ) ^ 2 - 0 ^ 2) ^ 2 - (2 * 1 * 0) ^ 2) * v 6 -
            2 * ((1 : ℤ) ^ 2 - 0 ^ 2) * (2 * 1 * 0) * v 7
        else if i.val = 7 then
          2 * ((1 : ℤ) ^ 2 - 0 ^ 2) * (2 * 1 * 0) * v 6 +
            (((1 : ℤ) ^ 2 - 0 ^ 2) ^ 2 - (2 * 1 * 0) ^ 2) * v 7
        else v i) :=
  ⟨by simp,
   C3_CnRy_two_controls 1 (1 : ℤ) (0 : ℤ) (fun _ => (1 : ℤ))
     (fun _ => (0 : ℤ)) (by simp) rfl rfl rfl (by simp)⟩

end Claims

end Tket
